import Mathlib

/-!
# gosort: chunk partition, per-chunk sort, k-way merge

A shallow embedding of the core pipeline of `src/main.go`
(`makeChunks`, `sortChunksConcurrently`, `mergeChunks` with its `minHeap`)
and the properties proved about it.

Conventions of the embedding.

* A Go `[]int` is a `List Int`; a `[][]int` is a `List (List Int)`.  The
  program only compares and copies the values, so no arithmetic on them can
  wrap.  Lengths and indices are `Nat`: every index the program computes is
  bounded by the length of a slice that exists in memory, so it stays far
  below `2^63`.
* A Go run-time panic (index or slice bound out of range) is the value
  `Except.error Fault.outOfRange`.  Every function that indexes a slice is
  therefore `Except`-valued, and the theorems prove that the result is
  `Except.ok`.
* Loops whose trip count is not syntactically bounded take a fuel argument
  and return `Except.error Fault.outOfFuel` when it is exhausted; the
  theorems prove that the fuel passed by the callers suffices.
-/

namespace Gosort

/-- The two ways a run of the embedded program can stop without a result. -/
inductive Fault where
  | outOfRange
  | outOfFuel
deriving DecidableEq, Repr

/-! ## Chunking -/

/-- Search loop behind `ceilSqrt`: the least `c' ≥ c` with `c' * c' ≥ n`,
looking at most `fuel` candidates past `c`. -/
def ceilSqrtFrom (n : Nat) : Nat → Nat → Nat
  | 0, c => c
  | fuel + 1, c => if n ≤ c * c then c else ceilSqrtFrom n fuel (c + 1)

/-- Modelled from the spec: `int(math.Ceil(math.Sqrt(float64(n))))` of
`makeChunks` (line 109).  `math.Sqrt` and `math.Ceil` are Go's standard
library on `float64`; the spec reads the expression as `ceiling(sqrt(N))`,
the least natural number whose square is at least `n`, which is what this
definition computes.  The evaluation in `float64` arithmetic is `goCeilSqrt`
below; the two agree for every `n ≤ 2^52` (`goCeilSqrt_eq`), and a slice of
more than `2^52` eight-byte integers (32 PiB) is beyond what the Go runtime
allocates. -/
def ceilSqrt (n : Nat) : Nat := ceilSqrtFrom n n 0

/-- The chunk-count target of `makeChunks` (lines 109-112): the ceiling of the
square root, raised to 4 when smaller. -/
def chunkTarget (n : Nat) : Nat :=
  let k := ceilSqrt n
  if k < 4 then 4 else k

/-- The size given to chunk number `i` (lines 120-123). -/
def chunkSize (base rem i : Nat) : Nat :=
  if i < rem then base + 1 else base

/-- The slice expression `nums[lo:hi]`, which panics unless
`lo ≤ hi ≤ len(nums)`.  (Go checks `hi` against the capacity; the length is
the stricter bound.) -/
def slice (nums : List Int) (lo hi : Nat) : Except Fault (List Int) :=
  if lo ≤ hi ∧ hi ≤ nums.length then .ok ((nums.drop lo).take (hi - lo))
  else .error .outOfRange

/-- The `for i := 0; i < k; i++` loop of `makeChunks` (lines 119-131).  The
first argument is the number of iterations left, `k - i`. -/
def makeChunksLoop (nums : List Int) (base rem : Nat) :
    Nat → Nat → Nat → List (List Int) → Except Fault (List (List Int))
  | 0, _, _, chunks => .ok chunks
  | m + 1, i, idx, chunks =>
    let size := chunkSize base rem i
    if size = 0 then
      makeChunksLoop nums base rem m (i + 1) idx chunks
    else
      match slice nums idx (idx + size) with
      | .ok chunk => makeChunksLoop nums base rem m (i + 1) (idx + size) (chunks ++ [chunk])
      | .error e => .error e

/-- The function `makeChunks` (lines 107-133). -/
def makeChunks (nums : List Int) : Except Fault (List (List Int)) :=
  let n := nums.length
  let k := chunkTarget n
  let base := n / k
  let rem := n % k
  makeChunksLoop nums base rem k 0 0 []

/-! ## Sorting the chunks -/

/-- Insertion of one value into an ascending list. -/
def insertAsc (a : Int) : List Int → List Int
  | [] => [a]
  | b :: l => if a ≤ b then a :: b :: l else b :: insertAsc a l

/-- Modelled from the spec: `sort.Ints` (Go's standard library, called at
line 143), "any correct ascending comparison sort over signed integers".
The ascending arrangement of a list of integers is unique, so every correct
sort computes this function; insertion sort stands for it. -/
def sortInts : List Int → List Int
  | [] => []
  | a :: l => insertAsc a (sortInts l)

/-- The function `sortChunksConcurrently` (lines 137-147).  One goroutine per
index sorts `chunks[i]` and the call returns after `wg.Wait()`; the goroutines
touch disjoint chunks, so the state after the barrier is the collection with
every chunk sorted.  The in-place update is returned as the new collection. -/
def sortChunksConcurrently (chunks : List (List Int)) : List (List Int) :=
  chunks.map sortInts

/-! ## The heap of merge candidates -/

/-- The record `item` (lines 151-155). -/
structure item where
  value : Int
  ci : Nat
  pi : Nat
deriving DecidableEq, Repr

/-- The type `minHeap` (line 157). -/
abbrev minHeap := List item

/-- The method `minHeap.Len` (line 159). -/
def minHeap.Len (h : minHeap) : Nat := h.length

/-- The method `minHeap.Less` (line 160); indexing panics out of range. -/
def minHeap.Less (h : minHeap) (i j : Nat) : Except Fault Bool :=
  match h[i]?, h[j]? with
  | some a, some b => .ok (decide (a.value < b.value))
  | _, _ => .error .outOfRange

/-- The method `minHeap.Swap` (line 161); indexing panics out of range. -/
def minHeap.Swap (h : minHeap) (i j : Nat) : Except Fault minHeap :=
  match h[i]?, h[j]? with
  | some a, some b => .ok ((h.set i b).set j a)
  | _, _ => .error .outOfRange

/-- The method `minHeap.Push` (line 162). -/
def minHeap.Push (h : minHeap) (x : item) : minHeap := h ++ [x]

/-- The method `minHeap.Pop` (lines 163-169): the last element and the heap
without it; `old[n-1]` panics on the empty heap. -/
def minHeap.Pop (h : minHeap) : Except Fault (item × minHeap) :=
  match h.getLast? with
  | some x => .ok (x, h.dropLast)
  | none => .error .outOfRange

namespace heap

/-- Modelled from the spec: the sift-up loop of the "min-priority structure
(binary heap)" behind `heap.Push`; Go's `container/heap` is not under src/.
Following that library: `i := (j - 1) / 2`, stop when `i == j` or
`!h.Less(j, i)`, else `h.Swap(i, j)` and continue at `i`. -/
def up : Nat → minHeap → Nat → Except Fault minHeap
  | 0, _, _ => .error .outOfFuel
  | fuel + 1, h, j =>
    let i := (j - 1) / 2
    if i = j then .ok h
    else
      match h.Less j i with
      | .error e => .error e
      | .ok false => .ok h
      | .ok true =>
        match h.Swap i j with
        | .error e => .error e
        | .ok h1 => up fuel h1 i

/-- Modelled from the spec: the sift-down loop of the binary heap behind
`heap.Pop` and `heap.Init`; Go's `container/heap` is not under src/.
Following that library: with `j1 := 2*i + 1`, stop when `j1 >= n`; take the
right child `j2 := j1 + 1` when `j2 < n && h.Less(j2, j1)`; stop when
`!h.Less(j, i)`, else `h.Swap(i, j)` and continue at `j`. -/
def down : Nat → minHeap → Nat → Nat → Except Fault minHeap
  | 0, _, _, _ => .error .outOfFuel
  | fuel + 1, h, i, n =>
    let j1 := 2 * i + 1
    if n ≤ j1 then .ok h
    else
      let j2 := j1 + 1
      match (if j2 < n then h.Less j2 j1 else .ok false) with
      | .error e => .error e
      | .ok right =>
        let j := if right then j2 else j1
        match h.Less j i with
        | .error e => .error e
        | .ok false => .ok h
        | .ok true =>
          match h.Swap i j with
          | .error e => .error e
          | .ok h1 => down fuel h1 j n

/-- The loop `for i := n/2 - 1; i >= 0; i--` of `heap.Init`; the first
argument is `i + 1`. -/
def initLoop (n : Nat) : Nat → minHeap → Except Fault minHeap
  | 0, h => .ok h
  | i + 1, h =>
    match down (n + 1) h i n with
    | .error e => .error e
    | .ok h1 => initLoop n i h1

/-- Modelled from the spec: `heap.Init` of Go's `container/heap` (not under
src/), which sifts down every inner node, last to first. -/
def Init (h : minHeap) : Except Fault minHeap :=
  let n := h.Len
  initLoop n (n / 2) h

/-- Modelled from the spec: `heap.Push` of Go's `container/heap` (not under
src/): `h.Push(x)` then `up(h, h.Len()-1)`. -/
def Push (h : minHeap) (x : item) : Except Fault minHeap :=
  let h1 := h.Push x
  up h1.Len h1 (h1.Len - 1)

/-- Modelled from the spec: `heap.Pop` of Go's `container/heap` (not under
src/): `n := h.Len() - 1`, `h.Swap(0, n)`, `down(h, 0, n)`, then `h.Pop()`.
On the empty heap `n` is `-1` and the swap panics. -/
def Pop (h : minHeap) : Except Fault (item × minHeap) :=
  if h.Len = 0 then .error .outOfRange
  else
    let n := h.Len - 1
    match h.Swap 0 n with
    | .error e => .error e
    | .ok h1 =>
      match down (n + 1) h1 0 n with
      | .error e => .error e
      | .ok h2 => h2.Pop

end heap

/-! ## Merging -/

/-- The loop `for ci, ch := range chunks` of `mergeChunks` (lines 176-181),
over the chunks not yet visited; `ci` is the index of the first of them. -/
def mergeSeed : List (List Int) → Nat → minHeap → Nat → Except Fault (minHeap × Nat)
  | [], _, h, total => .ok (h, total)
  | ch :: rest, ci, h, total =>
    if 0 < ch.length then
      match ch[0]? with
      | none => .error .outOfRange
      | some v =>
        match heap.Push h ⟨v, ci, 0⟩ with
        | .error e => .error e
        | .ok h1 => mergeSeed rest (ci + 1) h1 (total + ch.length)
    else mergeSeed rest (ci + 1) h total

/-- One iteration of the body of `for h.Len() > 0` in `mergeChunks`
(lines 185-193), entered with a non-empty heap. -/
def mergeStep (chunks : List (List Int)) (h : minHeap) (res : List Int) :
    Except Fault (minHeap × List Int) :=
  match heap.Pop h with
  | .error e => .error e
  | .ok (it, h1) =>
    let res1 := res ++ [it.value]
    match chunks[it.ci]? with
    | none => .error .outOfRange
    | some ch =>
      if it.pi + 1 < ch.length then
        match ch[it.pi + 1]? with
        | none => .error .outOfRange
        | some v =>
          match heap.Push h1 ⟨v, it.ci, it.pi + 1⟩ with
          | .error e => .error e
          | .ok h2 => .ok (h2, res1)
      else .ok (h1, res1)

/-- The loop `for h.Len() > 0` of `mergeChunks` (lines 184-194); the first
argument is the fuel, one unit per iteration. -/
def mergeLoop (chunks : List (List Int)) : Nat → minHeap → List Int → Except Fault (List Int)
  | 0, h, res => if 0 < h.Len then .error .outOfFuel else .ok res
  | fuel + 1, h, res =>
    if 0 < h.Len then
      match mergeStep chunks h res with
      | .error e => .error e
      | .ok (h1, res1) => mergeLoop chunks fuel h1 res1
    else .ok res

/-- The function `mergeChunks` (lines 171-196).  The loop is given `total`
units of fuel, the number of elements counted by the seeding loop. -/
def mergeChunks (chunks : List (List Int)) : Except Fault (List Int) :=
  match heap.Init [] with
  | .error e => .error e
  | .ok h0 =>
    match mergeSeed chunks 0 h0 0 with
    | .error e => .error e
    | .ok (h, total) => mergeLoop chunks total h []

/-- The core pipeline of `runAndPrint` and `processDirectory` (lines 92-100,
269-271): `makeChunks`, `sortChunksConcurrently`, `mergeChunks`. -/
def pipeline (nums : List Int) : Except Fault (List Int) :=
  match makeChunks nums with
  | .error e => .error e
  | .ok chunks => mergeChunks (sortChunksConcurrently chunks)

/-! ## Specification vocabulary -/

/-- A sequence is ascending when every adjacent pair `a, b` has `a ≤ b`. -/
def Ascending : List Int → Prop
  | [] => True
  | [_] => True
  | a :: b :: l => a ≤ b ∧ Ascending (b :: l)

/-- Whether a sequence is ascending can be computed. -/
instance decAscending : (l : List Int) → Decidable (Ascending l)
  | [] => isTrue trivial
  | [_] => isTrue trivial
  | a :: b :: l =>
    match Int.decLe a b, decAscending (b :: l) with
    | isTrue h1, isTrue h2 => isTrue ⟨h1, h2⟩
    | isFalse h1, _ => isFalse (fun h => h1 h.1)
    | _, isFalse h2 => isFalse (fun h => h2 h.2)

/-- The sum of the sizes given to the chunks numbered `i, ..., i + m - 1`. -/
def sizeSum (base rem : Nat) : Nat → Nat → Nat
  | _, 0 => 0
  | i, m + 1 => chunkSize base rem i + sizeSum base rem (i + 1) m

/-- The chunks cut by `m` iterations of the loop of `makeChunks` that start at
chunk number `i` and offset `idx`, as a function of the input alone. -/
def chunksFrom (nums : List Int) (base rem : Nat) : Nat → Nat → Nat → List (List Int)
  | 0, _, _ => []
  | m + 1, i, idx =>
    if chunkSize base rem i = 0 then chunksFrom nums base rem m (i + 1) idx
    else (nums.drop idx).take (chunkSize base rem i) ::
      chunksFrom nums base rem m (i + 1) (idx + chunkSize base rem i)

/-- The key stored at index `k` of the heap (0 past the end). -/
def key (h : minHeap) (k : Nat) : Int :=
  match h[k]? with
  | some a => a.value
  | none => 0

/-- The first `n` slots are in heap order: no slot is smaller than its parent
slot `(k - 1) / 2`. -/
def HeapUpTo (h : minHeap) (n : Nat) : Prop :=
  ∀ k, 0 < k → k < n → key h ((k - 1) / 2) ≤ key h k

/-- The whole list is in heap order. -/
def IsHeap (h : minHeap) : Prop := HeapUpTo h h.length

/-- The list with the entries at `i` and `j` exchanged. -/
def swp (h : minHeap) (i j : Nat) : minHeap :=
  match h[i]?, h[j]? with
  | some a, some b => (h.set i b).set j a
  | _, _ => h

/-- Heap order everywhere except that slot `j` may be smaller than its
parent; the children of `j` are already above the parent of `j`. -/
def UpInv (h : minHeap) (j : Nat) : Prop :=
  (∀ k, 0 < k → k < h.length → k ≠ j → key h ((k - 1) / 2) ≤ key h k) ∧
  (∀ k, 0 < k → k < h.length → (k - 1) / 2 = j → 0 < j →
    key h ((j - 1) / 2) ≤ key h k)

/-- Heap order on the first `n` slots except that slot `i` may be larger than
its children; the children of `i` are already above the parent of `i`. -/
def DownInv (h : minHeap) (i n : Nat) : Prop :=
  (∀ k, 0 < k → k < n → (k - 1) / 2 ≠ i → key h ((k - 1) / 2) ≤ key h k) ∧
  (∀ k, 0 < k → k < n → (k - 1) / 2 = i → 0 < i →
    key h ((i - 1) / 2) ≤ key h k)

/-- The part of its chunk that a candidate stands for: the chunk from the
candidate's position on. -/
def rest (chunks : List (List Int)) (it : item) : List Int :=
  match chunks[it.ci]? with
  | some ch => ch.drop it.pi
  | none => []

/-- Everything the candidates in the heap stand for. -/
def pending (chunks : List (List Int)) (h : minHeap) : List Int :=
  h.flatMap (rest chunks)

/-- A candidate is valid when it names a position of a chunk and carries the
value stored there. -/
def Valid (chunks : List (List Int)) (it : item) : Prop :=
  ∃ ch, chunks[it.ci]? = some ch ∧ ch[it.pi]? = some it.value

/-! ## Observing the loops -/

/-- The loop of `makeChunks` (lines 119-131) with two observations added to
its state: the value of `idx`, returned at the end, and the bounds
`(idx, idx + size)` of every slice expression `nums[idx:idx+size]` it
evaluates. -/
def makeChunksLoopObs (nums : List Int) (base rem : Nat) :
    Nat → Nat → Nat → List (List Int) → List (Nat × Nat) →
      Except Fault (List (List Int) × Nat × List (Nat × Nat))
  | 0, _, idx, chunks, obs => .ok (chunks, idx, obs)
  | m + 1, i, idx, chunks, obs =>
    let size := chunkSize base rem i
    if size = 0 then
      makeChunksLoopObs nums base rem m (i + 1) idx chunks obs
    else
      match slice nums idx (idx + size) with
      | .ok chunk =>
        makeChunksLoopObs nums base rem m (i + 1) (idx + size) (chunks ++ [chunk])
          (obs ++ [(idx, idx + size)])
      | .error e => .error e

/-- The function `makeChunks` with the observations of `makeChunksLoopObs`. -/
def makeChunksObs (nums : List Int) :
    Except Fault (List (List Int) × Nat × List (Nat × Nat)) :=
  let n := nums.length
  let k := chunkTarget n
  let base := n / k
  let rem := n % k
  makeChunksLoopObs nums base rem k 0 0 [] []

/-- The loop `for h.Len() > 0` of `mergeChunks` as a transition system.
`LoopAt chunks h0 n h res tr` says: started with heap `h0` and an empty
result, the loop has completed `n` iterations and stands at its condition with
heap `h` and result `res`, and `tr` lists the candidates returned by
`heap.Pop` in those iterations, in order. -/
inductive LoopAt (chunks : List (List Int)) (h0 : minHeap) :
    Nat → minHeap → List Int → List item → Prop
  | start : LoopAt chunks h0 0 h0 [] []
  | next {n : Nat} {h hp h1 : minHeap} {res res1 : List Int} {tr : List item} {x : item} :
      LoopAt chunks h0 n h res tr → 0 < h.Len → heap.Pop h = .ok (x, hp) →
      mergeStep chunks h res = .ok (h1, res1) → LoopAt chunks h0 (n + 1) h1 res1 (tr ++ [x])

/-- The number of elements of chunk `c` emitted so far, when `tr` lists the
candidates popped so far. -/
def emitted (c : Nat) (tr : List item) : Nat :=
  tr.countP (fun it => it.ci = c)

/-- The values emitted so far that came from chunk `c`, in emission order. -/
def emittedFrom (c : Nat) (tr : List item) : List Int :=
  (tr.filter (fun it => it.ci = c)).map item.value

/-- The number of non-empty chunks of a collection. -/
def nonEmptyCount (chunks : List (List Int)) : Nat :=
  chunks.countP (fun ch => 0 < ch.length)

/-- The frontier invariant of the merge loop, for heap `h`, result `res` and
popped candidates `tr`. -/
structure Frontier (chunks : List (List Int)) (h : minHeap) (res : List Int)
    (tr : List item) : Prop where
  isHeap : IsHeap h
  nodup : (h.map item.ci).Nodup
  size : h.length ≤ nonEmptyCount chunks
  valid : ∀ it ∈ h, Valid chunks it
  pos : ∀ it ∈ h, it.pi = emitted it.ci tr
  done : ∀ (c : Nat) (ch : List Int), chunks[c]? = some ch → (∀ it ∈ h, it.ci ≠ c) →
    emitted c tr = ch.length
  out : res = tr.map item.value
  order : ∀ (c : Nat) (ch : List Int), chunks[c]? = some ch →
    emittedFrom c tr = ch.take (emitted c tr)
  count : tr.length + (pending chunks h).length = chunks.flatten.length

/-! ## The chunk-count target in `float64` arithmetic -/

/-- The number of binary digits of `n` (0 for 0), for `n < 2 ^ fuel`. -/
def bitLen : Nat → Nat → Nat
  | 0, _ => 0
  | fuel + 1, n => if n = 0 then 0 else bitLen fuel (n / 2) + 1

/-- Bit-by-bit integer square root: starting from `r`, try to add the powers
`2 ^ (b - 1), ..., 2, 1` while the square stays at most `n`. -/
def isqrtBits (n : Nat) : Nat → Nat → Nat
  | 0, r => r
  | b + 1, r =>
    if (r + 2 ^ b) * (r + 2 ^ b) ≤ n then isqrtBits n b (r + 2 ^ b) else isqrtBits n b r

/-- The integer part of the square root of `n`, for `n < 2 ^ 256`. -/
def isqrt (n : Nat) : Nat := isqrtBits n 128 0

/-- The conversion `float64(n)` of line 109 for `0 ≤ n < 2^63`, as the integer
value of the resulting IEEE-754 binary64 number: `n` itself below `2^53`,
otherwise `n` rounded to 53 significant bits, to nearest, ties to even. -/
def toFloat64 (n : Nat) : Nat :=
  if n < 2 ^ 53 then n
  else
    let s := bitLen 64 n - 53
    let q := n / 2 ^ s
    let r := n % 2 ^ s
    let half := 2 ^ (s - 1)
    if half < r ∨ (r = half ∧ q % 2 = 1) then (q + 1) * 2 ^ s else q * 2 ^ s

/-- The call `math.Sqrt(x)` of line 109 on an integer-valued `x ≤ 2^63`: the
IEEE-754 binary64 number nearest to the real square root, returned as the pair
`(q, t)` that stands for `q / 2 ^ t`.  With `2 ^ p ≤ sqrt x < 2 ^ (p + 1)` the
binary64 numbers of that range are the multiples of `2 ^ (p - 52)`, so
`t = 52 - p` and `q` is the integer nearest to `sqrt (x * 4 ^ t)` (a square
root is never half-way between two of them). -/
def sqrtFloat64 (x : Nat) : Nat × Nat :=
  let m := isqrt x
  let p := bitLen 64 m - 1
  let t := 52 - p
  let r := isqrt (x * 4 ^ t)
  let q := if x * 4 ^ t ≤ r * r + r then r else r + 1
  (q, t)

/-- The call `math.Ceil` of line 109 on the binary64 number `q / 2 ^ t`,
followed by the conversion `int(...)`: the least integer that is not below
it. -/
def ceilFloat64 (q t : Nat) : Nat := (q + 2 ^ t - 1) / 2 ^ t

/-- The expression `int(math.Ceil(math.Sqrt(float64(n))))` of line 109 in
IEEE-754 binary64 arithmetic. -/
def goCeilSqrt (n : Nat) : Nat :=
  let s := sqrtFloat64 (toFloat64 n)
  ceilFloat64 s.1 s.2

/-- The chunk-count target of `makeChunks` (lines 109-112) in IEEE-754
binary64 arithmetic. -/
def goChunkTarget (n : Nat) : Nat :=
  let k := goCeilSqrt n
  if k < 4 then 4 else k

/-! ## The chunk-count target -/

theorem ceilSqrtFrom_le (n : Nat) : ∀ fuel c, ceilSqrtFrom n fuel c ≤ c + fuel := by
  intro fuel
  induction fuel with
  | zero => intro c; simp [ceilSqrtFrom]
  | succ f ih =>
    intro c
    unfold ceilSqrtFrom
    split
    · omega
    · have := ih (c + 1); omega

theorem ceilSqrtFrom_ge (n : Nat) : ∀ fuel c, c ≤ ceilSqrtFrom n fuel c := by
  intro fuel
  induction fuel with
  | zero => intro c; simp [ceilSqrtFrom]
  | succ f ih =>
    intro c
    unfold ceilSqrtFrom
    split
    · omega
    · have := ih (c + 1); omega

theorem ceilSqrtFrom_sq (n : Nat) :
    ∀ fuel c, n ≤ (c + fuel) * (c + fuel) →
      n ≤ ceilSqrtFrom n fuel c * ceilSqrtFrom n fuel c := by
  intro fuel
  induction fuel with
  | zero => intro c h; simpa [ceilSqrtFrom] using h
  | succ f ih =>
    intro c h
    unfold ceilSqrtFrom
    split
    · assumption
    · apply ih
      have e : c + 1 + f = c + (f + 1) := by omega
      rw [e]
      exact h

theorem ceilSqrtFrom_least (n : Nat) :
    ∀ fuel c d, c ≤ d → n ≤ d * d → ceilSqrtFrom n fuel c ≤ d := by
  intro fuel
  induction fuel with
  | zero => intro c d h _; simpa [ceilSqrtFrom] using h
  | succ f ih =>
    intro c d hcd hd
    unfold ceilSqrtFrom
    split
    · exact hcd
    · rename_i hc
      apply ih _ _ _ hd
      rcases Nat.lt_or_ge c d with h | h
      · exact h
      · have hdc : d = c := Nat.le_antisymm h hcd
        subst hdc
        exact absurd hd hc

/-- The value `ceilSqrt n` is the ceiling of the square root of `n`: its
square reaches `n`, and it is the least such number. -/
theorem ceilSqrt_spec (n : Nat) :
    n ≤ ceilSqrt n * ceilSqrt n ∧ ∀ d, n ≤ d * d → ceilSqrt n ≤ d := by
  refine ⟨?_, fun d hd => ceilSqrtFrom_least n n 0 d (Nat.zero_le _) hd⟩
  apply ceilSqrtFrom_sq
  simp only [Nat.zero_add]
  exact Nat.le_mul_self n

theorem ceilSqrt_le (n : Nat) : ceilSqrt n ≤ n := by
  have := ceilSqrtFrom_le n n 0
  unfold ceilSqrt
  omega

theorem chunkTarget_eq (n : Nat) : chunkTarget n = max 4 (ceilSqrt n) := by
  unfold chunkTarget
  simp only
  split <;> omega

theorem chunkTarget_pos (n : Nat) : 0 < chunkTarget n := by
  rw [chunkTarget_eq]; omega

/-! ## The chunking loop -/

theorem sizeSum_eq (base rem : Nat) :
    ∀ m i, sizeSum base rem i m = base * m + (min rem (i + m) - min rem i) := by
  intro m
  induction m with
  | zero => intro i; simp [sizeSum]
  | succ m ih =>
    intro i
    unfold sizeSum
    rw [ih (i + 1), Nat.mul_succ]
    unfold chunkSize
    split <;> omega

theorem makeChunksLoop_eq (nums : List Int) (base rem : Nat) :
    ∀ m i idx acc, idx + sizeSum base rem i m ≤ nums.length →
      makeChunksLoop nums base rem m i idx acc
        = .ok (acc ++ chunksFrom nums base rem m i idx) := by
  intro m
  induction m with
  | zero => intro i idx acc _; simp [makeChunksLoop, chunksFrom]
  | succ m ih =>
    intro i idx acc h
    unfold sizeSum at h
    unfold makeChunksLoop chunksFrom
    simp only
    by_cases hz : chunkSize base rem i = 0
    · rw [if_pos hz, if_pos hz]
      apply ih
      omega
    · rw [if_neg hz, if_neg hz]
      have hs : slice nums idx (idx + chunkSize base rem i)
          = .ok ((nums.drop idx).take (chunkSize base rem i)) := by
        unfold slice
        rw [if_pos ⟨by omega, by omega⟩]
        simp
      rw [hs]
      simp only
      rw [ih (i + 1) (idx + chunkSize base rem i) _ (by omega)]
      simp

theorem chunksFrom_flatten (nums : List Int) (base rem : Nat) :
    ∀ m i idx, (chunksFrom nums base rem m i idx).flatten
      = (nums.drop idx).take (sizeSum base rem i m) := by
  intro m
  induction m with
  | zero => intro i idx; simp [chunksFrom, sizeSum]
  | succ m ih =>
    intro i idx
    unfold chunksFrom sizeSum
    by_cases hz : chunkSize base rem i = 0
    · rw [if_pos hz, ih, hz, Nat.zero_add]
    · rw [if_neg hz, List.flatten_cons, ih, List.take_add, List.drop_drop]

theorem chunksFrom_lengths (nums : List Int) (base rem : Nat) :
    ∀ m i idx, idx + sizeSum base rem i m ≤ nums.length →
      (chunksFrom nums base rem m i idx).map List.length
        = List.replicate (min rem (i + m) - min rem i) (base + 1)
          ++ (if base = 0 then []
              else List.replicate (m - (min rem (i + m) - min rem i)) base) := by
  intro m
  induction m with
  | zero => intro i idx _; simp [chunksFrom]
  | succ m ih =>
    intro i idx h
    unfold sizeSum at h
    unfold chunksFrom
    by_cases hi : i < rem
    · have hc : chunkSize base rem i = base + 1 := by simp [chunkSize, hi]
      rw [hc] at h ⊢
      rw [if_neg (by omega), List.map_cons, ih (i + 1) _ (by omega)]
      have e1 : min rem (i + (m + 1)) - min rem i
          = (min rem (i + 1 + m) - min rem (i + 1)) + 1 := by omega
      have e2 : m + 1 - (min rem (i + 1 + m) - min rem (i + 1) + 1)
          = m - (min rem (i + 1 + m) - min rem (i + 1)) := by omega
      rw [e1, e2, List.replicate_succ, List.length_take, List.length_drop]
      simp only [List.cons_append, List.cons.injEq, and_true]
      omega
    · have hc : chunkSize base rem i = base := by simp [chunkSize, hi]
      rw [hc] at h ⊢
      have e1 : min rem (i + (m + 1)) - min rem i = 0 := by omega
      have e2 : min rem (i + 1 + m) - min rem (i + 1) = 0 := by omega
      by_cases hb : base = 0
      · rw [if_pos hb, ih (i + 1) _ (by omega), e1, e2]
        simp [hb]
      · rw [if_neg hb, List.map_cons, ih (i + 1) _ (by omega), e1, e2]
        simp only [if_neg hb, List.replicate_zero, List.nil_append, Nat.sub_zero,
          List.replicate_succ, List.length_take, List.length_drop, List.cons.injEq, and_true]
        omega

/-- What `makeChunks` returns, in terms of the input: it does not fail, the
chunks concatenate to the input, and their lengths are `n % k` times
`n / k + 1` followed, when `n / k` is not zero, by `k - n % k` times `n / k`. -/
theorem makeChunks_spec (nums : List Int) :
    ∃ chunks, makeChunks nums = .ok chunks ∧ chunks.flatten = nums ∧
      chunks.map List.length
        = List.replicate (nums.length % chunkTarget nums.length)
            (nums.length / chunkTarget nums.length + 1)
          ++ (if nums.length / chunkTarget nums.length = 0 then []
              else List.replicate
                (chunkTarget nums.length - nums.length % chunkTarget nums.length)
                (nums.length / chunkTarget nums.length)) := by
  have hk := chunkTarget_pos nums.length
  have hrem : nums.length % chunkTarget nums.length < chunkTarget nums.length :=
    Nat.mod_lt _ hk
  have hsum : sizeSum (nums.length / chunkTarget nums.length)
      (nums.length % chunkTarget nums.length) 0 (chunkTarget nums.length)
      = nums.length := by
    rw [sizeSum_eq]
    have := Nat.div_add_mod nums.length (chunkTarget nums.length)
    rw [Nat.mul_comm] at this
    omega
  refine ⟨chunksFrom nums (nums.length / chunkTarget nums.length)
    (nums.length % chunkTarget nums.length) (chunkTarget nums.length) 0 0, ?_, ?_, ?_⟩
  · unfold makeChunks
    simp only
    rw [makeChunksLoop_eq _ _ _ _ _ _ _ (by omega)]
    simp
  · rw [chunksFrom_flatten, hsum]
    simp
  · rw [chunksFrom_lengths _ _ _ _ _ _ (by omega)]
    have e : min (nums.length % chunkTarget nums.length) (0 + chunkTarget nums.length)
        - min (nums.length % chunkTarget nums.length) 0
        = nums.length % chunkTarget nums.length := by omega
    rw [e]

/-! ## Sorting -/

theorem ascending_iff_chain (l : List Int) :
    Ascending l ↔ List.Chain' (fun a b => a ≤ b) l := by
  induction l with
  | nil => simp [Ascending]
  | cons a t ih =>
    cases t with
    | nil => simp [Ascending]
    | cons b t => simp only [Ascending, List.chain'_cons, ih]

theorem ascending_iff_sorted (l : List Int) :
    Ascending l ↔ List.Sorted (fun a b => a ≤ b) l := by
  rw [ascending_iff_chain]
  unfold List.Sorted
  exact List.chain'_iff_pairwise

theorem insertAsc_eq (a : Int) (l : List Int) :
    insertAsc a l = List.orderedInsert (fun a b => a ≤ b) a l := by
  induction l with
  | nil => rfl
  | cons b l ih => simp [insertAsc, List.orderedInsert, ih]

theorem sortInts_eq (l : List Int) :
    sortInts l = List.insertionSort (fun a b => a ≤ b) l := by
  induction l with
  | nil => rfl
  | cons b l ih => simp [sortInts, List.insertionSort, ih, insertAsc_eq]

theorem sortInts_perm (l : List Int) : (sortInts l).Perm l := by
  rw [sortInts_eq]
  exact List.perm_insertionSort _ l

theorem sortInts_ascending (l : List Int) : Ascending (sortInts l) := by
  rw [ascending_iff_sorted, sortInts_eq]
  exact List.sorted_insertionSort _ l

/-! ## Heap order on an indexed list -/

theorem less_eq (h : minHeap) (i j : Nat) (hi : i < h.length) (hj : j < h.length) :
    h.Less i j = .ok (decide (key h i < key h j)) := by
  unfold minHeap.Less key
  rw [List.getElem?_eq_getElem hi, List.getElem?_eq_getElem hj]

theorem swap_eq (h : minHeap) (i j : Nat) (hi : i < h.length) (hj : j < h.length) :
    h.Swap i j = .ok (swp h i j) := by
  unfold minHeap.Swap swp
  rw [List.getElem?_eq_getElem hi, List.getElem?_eq_getElem hj]

theorem length_swp (h : minHeap) (i j : Nat) : (swp h i j).length = h.length := by
  unfold swp
  split <;> simp

theorem getElem?_swp (h : minHeap) (i j k : Nat) (hi : i < h.length) (hj : j < h.length) :
    (swp h i j)[k]? = if k = j then h[i]? else if k = i then h[j]? else h[k]? := by
  unfold swp
  rw [List.getElem?_eq_getElem hi, List.getElem?_eq_getElem hj]
  simp only
  by_cases hkj : k = j
  · subst hkj
    rw [if_pos rfl, List.getElem?_set_self (by simpa using hj)]
  · rw [if_neg hkj, List.getElem?_set_ne (Ne.symm hkj)]
    by_cases hki : k = i
    · subst hki
      rw [if_pos rfl, List.getElem?_set_self hi]
    · rw [if_neg hki, List.getElem?_set_ne (Ne.symm hki)]

theorem key_swp (h : minHeap) (i j k : Nat) (hi : i < h.length) (hj : j < h.length) :
    key (swp h i j) k = if k = j then key h i else if k = i then key h j else key h k := by
  unfold key
  rw [getElem?_swp h i j k hi hj]
  split_ifs <;> rfl

theorem swp_perm (h : minHeap) (i j : Nat) (hi : i < h.length) (hj : j < h.length) :
    (swp h i j).Perm h := by
  have e : swp h i j
      = List.ofFn (h.get ∘ (Equiv.swap (⟨j, hj⟩ : Fin h.length) ⟨i, hi⟩)) := by
    apply List.ext_getElem?
    intro k
    rw [getElem?_swp h i j k hi hj, List.getElem?_ofFn]
    by_cases hk : k < h.length
    · rw [List.ofFnNthVal, dif_pos hk]
      simp only [Function.comp_apply, Equiv.swap_apply_def, Fin.mk.injEq, List.get_eq_getElem]
      by_cases hkj : k = j
      · subst hkj
        simp [List.getElem?_eq_getElem hi]
      · by_cases hki : k = i
        · subst hki
          simp [hkj, List.getElem?_eq_getElem hj]
        · simp [hkj, hki, List.getElem?_eq_getElem hk]
    · rw [List.ofFnNthVal, dif_neg hk]
      have hkj : k ≠ j := by omega
      have hki : k ≠ i := by omega
      simp [hkj, hki, List.getElem?_eq_none (Nat.le_of_not_lt hk)]
  rw [e]
  have := Equiv.Perm.ofFn_comp_perm (Equiv.swap (⟨j, hj⟩ : Fin h.length) ⟨i, hi⟩) h.get
  simpa using this

/-! ## Sift-up and sift-down keep the heap order -/

theorem upInv_swp (h : minHeap) (j : Nat) (hj0 : 0 < j) (hj : j < h.length)
    (hlt : key h j < key h ((j - 1) / 2)) (inv : UpInv h j) :
    UpInv (swp h ((j - 1) / 2) j) ((j - 1) / 2) := by
  obtain ⟨H1, H2⟩ := inv
  have hi : (j - 1) / 2 < h.length := by omega
  have hij : (j - 1) / 2 ≠ j := by omega
  constructor
  · intro k hk0 hk hki
    rw [length_swp] at hk
    rw [key_swp h _ _ _ hi hj, key_swp h _ _ _ hi hj]
    by_cases hkj : k = j
    · subst hkj
      rw [if_pos rfl, if_neg hij, if_pos rfl]
      omega
    · rw [if_neg hkj, if_neg hki]
      have a1 := H1 k hk0 hk hkj
      by_cases hp : (k - 1) / 2 = j
      · rw [if_pos hp]
        exact H2 k hk0 hk hp hj0
      · rw [if_neg hp]
        by_cases hq : (k - 1) / 2 = (j - 1) / 2
        · rw [if_pos hq]
          rw [hq] at a1
          omega
        · rw [if_neg hq]
          exact a1
  · intro k hk0 hk hp hi0
    rw [length_swp] at hk
    rw [key_swp h _ _ _ hi hj, key_swp h _ _ _ hi hj]
    have hq1 : ((j - 1) / 2 - 1) / 2 ≠ j := by omega
    have hq2 : ((j - 1) / 2 - 1) / 2 ≠ (j - 1) / 2 := by omega
    rw [if_neg hq1, if_neg hq2]
    have a2 := H1 ((j - 1) / 2) hi0 hi hij
    by_cases hkj : k = j
    · rw [if_pos hkj]
      exact a2
    · have hki : k ≠ (j - 1) / 2 := by omega
      rw [if_neg hkj, if_neg hki]
      have a1 := H1 k hk0 hk hkj
      rw [hp] at a1
      omega

theorem upInv_done (h : minHeap) (j : Nat)
    (hle : j = 0 ∨ key h ((j - 1) / 2) ≤ key h j) (inv : UpInv h j) : IsHeap h := by
  obtain ⟨H1, _⟩ := inv
  intro k hk0 hk
  by_cases hkj : k = j
  · subst hkj
    rcases hle with h0 | hle
    · omega
    · exact hle
  · exact H1 k hk0 hk hkj

theorem up_spec : ∀ fuel (h : minHeap) j, j < fuel → j < h.length →
    ∃ h1, heap.up fuel h j = .ok h1 ∧ h1.length = h.length ∧ h1.Perm h ∧
      (UpInv h j → IsHeap h1) := by
  intro fuel
  induction fuel with
  | zero => intro h j hf; omega
  | succ fuel ih =>
    intro h j hf hj
    unfold heap.up
    simp only
    by_cases hij : (j - 1) / 2 = j
    · rw [if_pos hij]
      exact ⟨h, rfl, rfl, List.Perm.refl _, upInv_done h j (Or.inl (by omega))⟩
    · rw [if_neg hij]
      have hi : (j - 1) / 2 < h.length := by omega
      rw [less_eq h j _ hj hi]
      by_cases hlt : key h j < key h ((j - 1) / 2)
      · rw [decide_eq_true hlt]
        simp only
        rw [swap_eq h _ j hi hj]
        simp only
        obtain ⟨h1, e, hl, hp, hh⟩ :=
          ih (swp h ((j - 1) / 2) j) ((j - 1) / 2) (by omega) (by rw [length_swp]; exact hi)
        refine ⟨h1, e, ?_, hp.trans (swp_perm h _ _ hi hj), ?_⟩
        · rw [hl, length_swp]
        · intro inv
          exact hh (upInv_swp h j (by omega) hj hlt inv)
      · rw [decide_eq_false hlt]
        exact ⟨h, rfl, rfl, List.Perm.refl _, upInv_done h j (Or.inr (by omega))⟩

theorem downInv_swp (h : minHeap) (i j n : Nat) (hn : n ≤ h.length) (hj : j < n)
    (hc : j = 2 * i + 1 ∨ j = 2 * i + 2)
    (hsib : ∀ k, k < n → (k - 1) / 2 = i → 0 < k → key h j ≤ key h k)
    (hlt : key h j < key h i) (inv : DownInv h i n) :
    DownInv (swp h i j) j n := by
  obtain ⟨H1, H2⟩ := inv
  have hjl : j < h.length := by omega
  have hil : i < h.length := by omega
  have hij : i ≠ j := by omega
  have hpj : (j - 1) / 2 = i := by omega
  constructor
  · intro k hk0 hk hp
    rw [key_swp h _ _ _ hil hjl, key_swp h _ _ _ hil hjl, if_neg hp]
    by_cases hkj : k = j
    · subst hkj
      rw [if_pos rfl, if_pos hpj]
      omega
    · rw [if_neg hkj]
      by_cases hki : k = i
      · subst hki
        rw [if_pos rfl]
        have hpk : (k - 1) / 2 ≠ k := by omega
        rw [if_neg hpk]
        have := H2 j (by omega) hj hpj hk0
        exact this
      · rw [if_neg hki]
        by_cases hpi : (k - 1) / 2 = i
        · rw [if_pos hpi]
          exact hsib k hk hpi hk0
        · rw [if_neg hpi]
          exact H1 k hk0 hk hpi
  · intro k hk0 hk hp hj0
    rw [key_swp h _ _ _ hil hjl, key_swp h _ _ _ hil hjl]
    have hkj : k ≠ j := by omega
    have hki : k ≠ i := by omega
    rw [if_neg hkj, if_neg hki, hpj, if_neg hij, if_pos rfl]
    have a := H1 k hk0 hk (by omega)
    rw [hp] at a
    exact a

theorem downInv_done (h : minHeap) (i n : Nat)
    (hch : ∀ k, k < n → (k - 1) / 2 = i → 0 < k → key h i ≤ key h k)
    (inv : DownInv h i n) : HeapUpTo h n := by
  obtain ⟨H1, _⟩ := inv
  intro k hk0 hk
  by_cases hp : (k - 1) / 2 = i
  · rw [hp]
    exact hch k hk hp hk0
  · exact H1 k hk0 hk hp

theorem down_spec : ∀ fuel (h : minHeap) i n, 0 < fuel → n < i + fuel → n ≤ h.length →
    ∃ h1, heap.down fuel h i n = .ok h1 ∧ h1.length = h.length ∧ h1.Perm h ∧
      (∀ k, n ≤ k → h1[k]? = h[k]?) ∧ (DownInv h i n → HeapUpTo h1 n) := by
  intro fuel
  induction fuel with
  | zero => intro h i n h0; omega
  | succ fuel ih =>
    intro h i n _ hf hn
    unfold heap.down
    simp only
    by_cases hj1 : n ≤ 2 * i + 1
    · rw [if_pos hj1]
      refine ⟨h, rfl, rfl, List.Perm.refl _, fun _ _ => rfl, ?_⟩
      apply downInv_done
      intro k hk hp hk0
      omega
    · rw [if_neg hj1]
      -- the smaller child
      have hright : ∃ r : Bool,
          (if 2 * i + 1 + 1 < n then h.Less (2 * i + 1 + 1) (2 * i + 1) else .ok false)
            = .ok r ∧
          (r = true → 2 * i + 1 + 1 < n ∧ key h (2 * i + 1 + 1) < key h (2 * i + 1)) ∧
          (r = false → 2 * i + 1 + 1 < n → key h (2 * i + 1) ≤ key h (2 * i + 1 + 1)) := by
        by_cases hj2 : 2 * i + 1 + 1 < n
        · rw [if_pos hj2, less_eq h _ _ (by omega) (by omega)]
          refine ⟨_, rfl, ?_, ?_⟩
          · intro hr
            exact ⟨hj2, of_decide_eq_true hr⟩
          · intro hr _
            have := of_decide_eq_false hr
            omega
        · rw [if_neg hj2]
          exact ⟨false, rfl, fun hr => Bool.noConfusion hr, fun _ hc => absurd hc hj2⟩
      obtain ⟨r, er, hr1, hr0⟩ := hright
      rw [er]
      simp only
      have hjn : (if r = true then 2 * i + 1 + 1 else 2 * i + 1) < n := by
        cases r
        · simp; omega
        · have := (hr1 rfl).1
          simp; omega
      have hjc : (if r = true then 2 * i + 1 + 1 else 2 * i + 1) = 2 * i + 1 ∨
          (if r = true then 2 * i + 1 + 1 else 2 * i + 1) = 2 * i + 2 := by
        cases r <;> simp
      have hsib : ∀ k, k < n → (k - 1) / 2 = i → 0 < k →
          key h (if r = true then 2 * i + 1 + 1 else 2 * i + 1) ≤ key h k := by
        intro k hk hp hk0
        have hk12 : k = 2 * i + 1 ∨ k = 2 * i + 1 + 1 := by omega
        cases r
        · simp only [Bool.false_eq_true, if_false]
          rcases hk12 with e | e
          · rw [e]
          · rw [e]; exact hr0 rfl (by omega)
        · simp only [if_true]
          have := (hr1 rfl).2
          rcases hk12 with e | e
          · rw [e]; omega
          · rw [e]
      generalize (if r = true then 2 * i + 1 + 1 else 2 * i + 1) = j at hjn hjc hsib ⊢
      rw [less_eq h j i (by omega) (by omega)]
      by_cases hlt : key h j < key h i
      · rw [decide_eq_true hlt]
        simp only
        rw [swap_eq h i j (by omega) (by omega)]
        simp only
        obtain ⟨h1, e, hl, hp, hfix, hh⟩ :=
          ih (swp h i j) j n (by omega) (by omega) (by rw [length_swp]; exact hn)
        refine ⟨h1, e, ?_, hp.trans (swp_perm h _ _ (by omega) (by omega)), ?_, ?_⟩
        · rw [hl, length_swp]
        · intro k hk
          rw [hfix k hk, getElem?_swp h i j k (by omega) (by omega),
            if_neg (by omega), if_neg (by omega)]
        · intro inv
          exact hh (downInv_swp h i j n hn hjn hjc hsib hlt inv)
      · rw [decide_eq_false hlt]
        refine ⟨h, rfl, rfl, List.Perm.refl _, fun _ _ => rfl, ?_⟩
        apply downInv_done
        intro k hk hp hk0
        have := hsib k hk hp hk0
        omega

/-! ## `heap.Push` and `heap.Pop` -/

theorem key_eq_of_getElem? (h : minHeap) (k : Nat) (a : item) (e : h[k]? = some a) :
    key h k = a.value := by
  unfold key
  rw [e]

theorem key_congr (h g : minHeap) (k : Nat) (e : g[k]? = h[k]?) : key g k = key h k := by
  unfold key
  rw [e]

theorem isHeap_nil : IsHeap [] := by
  intro k _ hk
  simp at hk

theorem heap_init_nil : heap.Init [] = .ok [] := rfl

/-- In a heap the root carries the least key. -/
theorem isHeap_root_le (h : minHeap) (hh : IsHeap h) :
    ∀ k, k < h.length → key h 0 ≤ key h k := by
  intro k
  induction k using Nat.strong_induction_on with
  | _ k ih =>
    intro hk
    by_cases hk0 : k = 0
    · subst hk0; exact le_refl _
    · have h1 := hh k (by omega) hk
      have h2 := ih ((k - 1) / 2) (by omega) (by omega)
      omega

theorem push_spec (h : minHeap) (x : item) :
    ∃ h1, heap.Push h x = .ok h1 ∧ h1.Perm (x :: h) ∧ (IsHeap h → IsHeap h1) := by
  unfold heap.Push minHeap.Push minHeap.Len
  simp only
  have hlen : (h ++ [x]).length = h.length + 1 := by simp
  obtain ⟨h1, e, _, hp, hh⟩ :=
    up_spec (h ++ [x]).length (h ++ [x]) ((h ++ [x]).length - 1) (by omega) (by omega)
  refine ⟨h1, e, hp.trans (List.perm_append_singleton x h), ?_⟩
  intro hheap
  apply hh
  have hkey : ∀ k, k < h.length → key (h ++ [x]) k = key h k := by
    intro k hk
    apply key_congr
    exact List.getElem?_append_left hk
  constructor
  · intro k hk0 hk hkj
    rw [hlen] at hk hkj
    have hk1 : k < h.length := by omega
    rw [hkey k hk1, hkey _ (by omega)]
    exact hheap k hk0 hk1
  · intro k hk0 hk hp _
    rw [hlen] at hk hp
    omega

theorem pop_spec (h : minHeap) (hne : 0 < h.length) :
    ∃ x h1, heap.Pop h = .ok (x, h1) ∧ h[0]? = some x ∧ (x :: h1).Perm h ∧
      (IsHeap h → IsHeap h1 ∧ ∀ y ∈ h, x.value ≤ y.value) := by
  obtain ⟨x, hx⟩ : ∃ x, h[0]? = some x := ⟨h[0], List.getElem?_eq_getElem hne⟩
  have hn : h.length - 1 < h.length := by omega
  obtain ⟨h2, e, hl, hp, hfix, hh⟩ :=
    down_spec (h.length - 1 + 1) (swp h 0 (h.length - 1)) 0 (h.length - 1)
      (by omega) (by omega) (by rw [length_swp]; omega)
  have hlast : h2[h.length - 1]? = some x := by
    rw [hfix _ (le_refl _), getElem?_swp h 0 _ _ hne hn, if_pos rfl, hx]
  have hsplit : h2 = h2.dropLast ++ [x] := by
    have h2ne : h2 ≠ [] := by
      intro e0
      rw [e0] at hl
      rw [length_swp] at hl
      simp at hl
      omega
    have hg : h2.getLast h2ne = x := by
      have e1 := List.getLast?_eq_getElem? h2
      rw [hl, length_swp, hlast, List.getLast?_eq_getLast _ h2ne] at e1
      exact Option.some.inj e1
    rw [← hg]
    exact (List.dropLast_append_getLast h2ne).symm
  refine ⟨x, h2.dropLast, ?_, hx, ?_, ?_⟩
  · unfold heap.Pop minHeap.Len
    rw [if_neg (by omega)]
    simp only
    rw [swap_eq h 0 _ hne hn]
    simp only
    rw [e]
    simp only
    unfold minHeap.Pop
    rw [List.getLast?_eq_getElem?, hl, length_swp, hlast]
  · have p1 : (x :: h2.dropLast).Perm h2 := by
      conv_rhs => rw [hsplit]
      exact (List.perm_append_singleton x h2.dropLast).symm
    exact p1.trans (hp.trans (swp_perm h _ _ hne hn))
  · intro hheap
    constructor
    · have inv : DownInv (swp h 0 (h.length - 1)) 0 (h.length - 1) := by
        constructor
        · intro k hk0 hk hpk
          rw [key_swp h _ _ _ hne hn, key_swp h _ _ _ hne hn,
            if_neg (by omega), if_neg hpk, if_neg (by omega), if_neg (by omega)]
          exact hheap k hk0 (by omega)
        · intro k _ _ _ h00
          omega
      have hup := hh inv
      intro k hk0 hk
      rw [List.length_dropLast, hl, length_swp] at hk
      have hkey : ∀ m, m < h.length - 1 → key h2.dropLast m = key h2 m := by
        intro m hm
        apply key_congr
        rw [List.dropLast_eq_take, List.getElem?_take, hl, length_swp, if_pos hm]
      rw [hkey k hk, hkey _ (by omega)]
      exact hup k hk0 hk
    · intro y hy
      obtain ⟨k, hk, ek⟩ := List.getElem_of_mem hy
      have r := isHeap_root_le h hheap k hk
      rw [key_eq_of_getElem? h 0 x hx,
        key_eq_of_getElem? h k y (by rw [List.getElem?_eq_getElem hk, ek])] at r
      exact r

/-! ## The merge loop -/

theorem rest_eq_cons (chunks : List (List Int)) (it : item) (ch : List Int)
    (hc : chunks[it.ci]? = some ch) (hv : ch[it.pi]? = some it.value) :
    rest chunks it = it.value :: ch.drop (it.pi + 1) := by
  unfold rest
  rw [hc]
  simp only
  obtain ⟨hlt, e⟩ := List.getElem?_eq_some_iff.mp hv
  rw [List.drop_eq_getElem_cons hlt, e]

theorem pending_perm (chunks : List (List Int)) (h g : minHeap) (p : h.Perm g) :
    (pending chunks h).Perm (pending chunks g) :=
  List.Perm.flatMap_right _ p

theorem ascending_drop_ge (ch : List Int) (hs : Ascending ch) (i : Nat) (a : Int)
    (ha : ch[i]? = some a) : ∀ b ∈ ch.drop (i + 1), a ≤ b := by
  intro b hb
  rw [ascending_iff_sorted] at hs
  obtain ⟨k, hk, ek⟩ := List.getElem_of_mem hb
  rw [List.getElem_drop] at ek
  obtain ⟨hlt, e⟩ := List.getElem?_eq_some_iff.mp ha
  rw [List.length_drop] at hk
  have := List.pairwise_iff_getElem.mp hs i (i + 1 + k) hlt (by omega) (by omega)
  rw [e, ek] at this
  exact this

theorem mergeStep_spec (chunks : List (List Int)) (h : minHeap) (res : List Int)
    (hne : 0 < h.length) (hheap : IsHeap h) (hval : ∀ it ∈ h, Valid chunks it) :
    ∃ h1 x, mergeStep chunks h res = .ok (h1, res ++ [x.value]) ∧ h[0]? = some x ∧
      IsHeap h1 ∧ (∀ it ∈ h1, Valid chunks it) ∧
      (pending chunks h).Perm (x.value :: pending chunks h1) ∧
      (∀ it ∈ h, x.value ≤ it.value) ∧
      ((∀ c ∈ chunks, Ascending c) → ∀ it ∈ h1, x.value ≤ it.value) := by
  obtain ⟨x, hp, epop, hx0, perm, hh⟩ := pop_spec h hne
  obtain ⟨hheap1, hmin⟩ := hh hheap
  have hxmem : x ∈ h := perm.subset (List.mem_cons_self _ _)
  obtain ⟨ch, hc, hv⟩ := hval x hxmem
  have hvalp : ∀ it ∈ hp, Valid chunks it :=
    fun it hit => hval it (perm.subset (List.mem_cons_of_mem _ hit))
  have hminp : ∀ it ∈ hp, x.value ≤ it.value :=
    fun it hit => hmin it (perm.subset (List.mem_cons_of_mem _ hit))
  have hpend : (pending chunks h).Perm (rest chunks x ++ pending chunks hp) := by
    have := pending_perm chunks _ _ perm.symm
    simpa [pending] using this
  rw [rest_eq_cons chunks x ch hc hv] at hpend
  unfold mergeStep
  rw [epop]
  simp only
  rw [hc]
  simp only
  by_cases hnext : x.pi + 1 < ch.length
  · rw [if_pos hnext, List.getElem?_eq_getElem hnext]
    simp only
    obtain ⟨h2, epush, perm2, hh2⟩ := push_spec hp ⟨ch[x.pi + 1], x.ci, x.pi + 1⟩
    rw [epush]
    have hnew : Valid chunks ⟨ch[x.pi + 1], x.ci, x.pi + 1⟩ :=
      ⟨ch, hc, List.getElem?_eq_getElem hnext⟩
    refine ⟨h2, x, rfl, hx0, hh2 hheap1, ?_, ?_, hmin, ?_⟩
    · intro it hit
      rcases List.mem_cons.mp (perm2.subset hit) with e | hit1
      · rw [e]; exact hnew
      · exact hvalp it hit1
    · have p2 := pending_perm chunks _ _ perm2
      have e2 : pending chunks (⟨ch[x.pi + 1], x.ci, x.pi + 1⟩ :: hp)
          = ch.drop (x.pi + 1) ++ pending chunks hp := by
        have := rest_eq_cons chunks ⟨ch[x.pi + 1], x.ci, x.pi + 1⟩ ch hc
          (List.getElem?_eq_getElem hnext)
        simp only [pending, List.flatMap_cons, this]
        rw [← List.drop_eq_getElem_cons hnext]
      rw [e2] at p2
      exact hpend.trans (List.Perm.cons _ p2.symm)
    · intro hasc it hit
      rcases List.mem_cons.mp (perm2.subset hit) with e | hit1
      · rw [e]
        simp only
        apply ascending_drop_ge ch (hasc ch (List.getElem?_mem hc)) x.pi x.value hv
        rw [List.drop_eq_getElem_cons hnext]
        exact List.mem_cons_self _ _
      · exact hminp it hit1
  · rw [if_neg hnext]
    refine ⟨hp, x, rfl, hx0, hheap1, hvalp, ?_, hmin, fun _ => hminp⟩
    rw [List.drop_eq_nil_of_le (by omega)] at hpend
    simpa using hpend

theorem pending_length_pos (chunks : List (List Int)) (h : minHeap) (hne : 0 < h.length)
    (hval : ∀ it ∈ h, Valid chunks it) : 0 < (pending chunks h).length := by
  cases h with
  | nil => simp at hne
  | cons x t =>
    obtain ⟨ch, hc, hv⟩ := hval x (List.mem_cons_self _ _)
    simp only [pending, List.flatMap_cons, rest_eq_cons chunks x ch hc hv]
    simp

theorem mergeLoop_spec (chunks : List (List Int)) :
    ∀ fuel (h : minHeap) (res : List Int), IsHeap h → (∀ it ∈ h, Valid chunks it) →
      (pending chunks h).length = fuel →
      ∃ out, mergeLoop chunks fuel h res = .ok out ∧ out.Perm (res ++ pending chunks h) ∧
        ((∀ c ∈ chunks, Ascending c) → List.Sorted (fun a b => a ≤ b) res →
          (∀ r ∈ res, ∀ it ∈ h, r ≤ it.value) → List.Sorted (fun a b => a ≤ b) out) := by
  intro fuel
  induction fuel with
  | zero =>
    intro h res _ hval hlen
    have h0 : h.length = 0 := by
      by_contra hc
      have := pending_length_pos chunks h (by omega) hval
      omega
    have hnil : h = [] := List.length_eq_zero.mp h0
    subst hnil
    refine ⟨res, ?_, ?_, fun _ hs _ => hs⟩
    · simp [mergeLoop, minHeap.Len]
    · simp [pending]
  | succ fuel ih =>
    intro h res hheap hval hlen
    have hne : 0 < h.length := by
      by_contra hc
      have hnil : h = [] := List.length_eq_zero.mp (by omega)
      subst hnil
      simp [pending] at hlen
    obtain ⟨h1, x, estep, hx0, hheap1, hval1, hperm, hmin, hmin1⟩ :=
      mergeStep_spec chunks h res hne hheap hval
    have hlen1 : (pending chunks h1).length = fuel := by
      have := hperm.length_eq
      simp only [List.length_cons] at this
      omega
    obtain ⟨out, eout, pout, sout⟩ := ih h1 (res ++ [x.value]) hheap1 hval1 hlen1
    refine ⟨out, ?_, ?_, ?_⟩
    · unfold mergeLoop
      rw [if_pos (by simpa [minHeap.Len] using hne), estep]
      exact eout
    · refine pout.trans ?_
      rw [List.append_assoc]
      exact List.Perm.append_left res hperm.symm
    · intro hasc hs hle
      have hxmem : x ∈ h := List.getElem?_mem hx0
      apply sout hasc
      · rw [List.Sorted, List.pairwise_append]
        refine ⟨hs, List.pairwise_singleton _ _, ?_⟩
        intro a ha b hb
        rw [List.mem_singleton] at hb
        rw [hb]
        exact hle a ha x hxmem
      · intro r hr it hit
        rcases List.mem_append.mp hr with hr1 | hr1
        · exact le_trans (hle r hr1 x hxmem) (hmin1 hasc it hit)
        · rw [List.mem_singleton] at hr1
          rw [hr1]
          exact hmin1 hasc it hit

theorem mergeSeed_spec (chunks : List (List Int)) :
    ∀ (todo pre : List (List Int)) (h : minHeap) (total : Nat), chunks = pre ++ todo →
      IsHeap h → (∀ it ∈ h, Valid chunks it) →
      ∃ h1, mergeSeed todo pre.length h total = .ok (h1, total + todo.flatten.length) ∧
        IsHeap h1 ∧ (∀ it ∈ h1, Valid chunks it) ∧
        (pending chunks h1).Perm (pending chunks h ++ todo.flatten) := by
  intro todo
  induction todo with
  | nil =>
    intro pre h total _ hheap hval
    exact ⟨h, by simp [mergeSeed], hheap, hval, by simp⟩
  | cons ch todo ih =>
    intro pre h total hch hheap hval
    have hch1 : chunks = (pre ++ [ch]) ++ todo := by simp [hch]
    have hlen1 : (pre ++ [ch]).length = pre.length + 1 := by simp
    unfold mergeSeed
    by_cases hne : 0 < ch.length
    · rw [if_pos hne, List.getElem?_eq_getElem hne]
      simp only
      obtain ⟨h2, epush, perm2, hh2⟩ := push_spec h ⟨ch[0], pre.length, 0⟩
      rw [epush]
      simp only
      have hc : chunks[pre.length]? = some ch := by
        rw [hch, List.getElem?_append_right (le_refl _)]
        simp
      have hnew : Valid chunks ⟨ch[0], pre.length, 0⟩ :=
        ⟨ch, hc, List.getElem?_eq_getElem hne⟩
      have hval2 : ∀ it ∈ h2, Valid chunks it := by
        intro it hit
        rcases List.mem_cons.mp (perm2.subset hit) with e | hit1
        · rw [e]; exact hnew
        · exact hval it hit1
      obtain ⟨h1, e1, hheap1, hval1, p1⟩ :=
        ih (pre ++ [ch]) h2 (total + ch.length) hch1 (hh2 hheap) hval2
      rw [hlen1] at e1
      refine ⟨h1, ?_, hheap1, hval1, ?_⟩
      · rw [e1]
        simp [Nat.add_assoc]
      · have p2 := pending_perm chunks _ _ perm2
        have e2 : pending chunks (⟨ch[0], pre.length, 0⟩ :: h) = ch ++ pending chunks h := by
          simp only [pending, List.flatMap_cons, rest, hc, List.drop_zero]
        rw [e2] at p2
        refine p1.trans ?_
        rw [List.flatten_cons, ← List.append_assoc]
        exact List.Perm.append_right _ (p2.trans List.perm_append_comm)
    · rw [if_neg hne]
      have hnil : ch = [] := List.length_eq_zero.mp (by omega)
      obtain ⟨h1, e1, hheap1, hval1, p1⟩ := ih (pre ++ [ch]) h total hch1 hheap hval
      rw [hlen1] at e1
      refine ⟨h1, ?_, hheap1, hval1, ?_⟩
      · rw [e1]; simp [hnil]
      · rw [hnil]; simpa [hnil] using p1

/-- What `mergeChunks` returns: it does not fail, its output is a
rearrangement of all elements of all chunks, and when every chunk is
ascending so is the output. -/
theorem mergeChunks_spec (chunks : List (List Int)) :
    ∃ out, mergeChunks chunks = .ok out ∧ out.Perm chunks.flatten ∧
      ((∀ c ∈ chunks, Ascending c) → Ascending out) := by
  obtain ⟨h, eseed, hheap, hval, hperm⟩ :=
    mergeSeed_spec chunks chunks [] [] 0 rfl isHeap_nil (by simp)
  have hlen : (pending chunks h).length = 0 + chunks.flatten.length := by
    have := hperm.length_eq
    simpa [pending] using this
  obtain ⟨out, eout, pout, sout⟩ := mergeLoop_spec chunks _ h [] hheap hval hlen
  refine ⟨out, ?_, ?_, ?_⟩
  · unfold mergeChunks
    rw [heap_init_nil]
    simp only
    have e0 : ([] : List (List Int)).length = 0 := rfl
    rw [e0] at eseed
    rw [eseed]
    exact eout
  · refine pout.trans ?_
    simpa [pending] using hperm
  · intro hasc
    rw [ascending_iff_sorted]
    exact sout hasc List.sorted_nil (by simp)

/-! ## The claims -/

theorem chunks_length_eq (seq : List Int) (chunks : List (List Int))
    (hl : chunks.map List.length
      = List.replicate (seq.length % chunkTarget seq.length)
          (seq.length / chunkTarget seq.length + 1)
        ++ (if seq.length / chunkTarget seq.length = 0 then []
            else List.replicate
              (chunkTarget seq.length - seq.length % chunkTarget seq.length)
              (seq.length / chunkTarget seq.length))) :
    chunks.length = seq.length % chunkTarget seq.length
      + (if seq.length / chunkTarget seq.length = 0 then 0
         else chunkTarget seq.length - seq.length % chunkTarget seq.length) := by
  have := congrArg List.length hl
  rw [List.length_map, List.length_append, List.length_replicate] at this
  rw [this]
  split <;> simp

theorem chunk_length_at (seq : List Int) (chunks : List (List Int))
    (hl : chunks.map List.length
      = List.replicate (seq.length % chunkTarget seq.length)
          (seq.length / chunkTarget seq.length + 1)
        ++ (if seq.length / chunkTarget seq.length = 0 then []
            else List.replicate
              (chunkTarget seq.length - seq.length % chunkTarget seq.length)
              (seq.length / chunkTarget seq.length)))
    (j : Nat) (c : List Int) (hc : chunks[j]? = some c) :
    c.length = if j < seq.length % chunkTarget seq.length
      then seq.length / chunkTarget seq.length + 1
      else seq.length / chunkTarget seq.length := by
  have e : (chunks.map List.length)[j]? = some c.length := by
    rw [List.getElem?_map, hc]
    rfl
  rw [hl] at e
  by_cases hj : j < seq.length % chunkTarget seq.length
  · rw [if_pos hj]
    rw [List.getElem?_append_left (by simpa using hj), List.getElem?_replicate, if_pos hj] at e
    exact (Option.some.inj e).symm
  · rw [if_neg hj]
    rw [List.getElem?_append_right (by simpa using hj)] at e
    split at e
    · simp at e
    · rw [List.getElem?_replicate] at e
      split at e
      · exact (Option.some.inj e).symm
      · cases e

theorem sortChunks_flatten_perm (chunks : List (List Int)) :
    (sortChunksConcurrently chunks).flatten.Perm chunks.flatten := by
  unfold sortChunksConcurrently
  induction chunks with
  | nil => simp
  | cons c t ih =>
    simp only [List.map_cons, List.flatten_cons]
    exact List.Perm.append (sortInts_perm c) ih

/-- The whole pipeline on any input: it does not fail and returns an ascending
rearrangement of the input. -/
theorem pipeline_spec (seq : List Int) :
    ∃ chunks out, makeChunks seq = .ok chunks ∧
      mergeChunks (sortChunksConcurrently chunks) = .ok out ∧
      pipeline seq = .ok out ∧ Ascending out ∧ out.Perm seq := by
  obtain ⟨chunks, emk, hflat, _⟩ := makeChunks_spec seq
  obtain ⟨out, emerge, hperm, hasc⟩ := mergeChunks_spec (sortChunksConcurrently chunks)
  refine ⟨chunks, out, emk, emerge, ?_, ?_, ?_⟩
  · unfold pipeline
    rw [emk]
    exact emerge
  · apply hasc
    intro c hc
    obtain ⟨c0, _, e⟩ := List.mem_map.mp hc
    rw [← e]
    exact sortInts_ascending c0
  · refine hperm.trans ?_
    have := sortChunks_flatten_perm chunks
    rw [hflat] at this
    exact this

/-- C1: for every sequence of length at least 1, partitioning it with
`makeChunks`, sorting the chunks with `sortChunksConcurrently` and merging them
with `mergeChunks` succeeds and returns an ascending sequence with the same
multiset of values as the input. -/
theorem C1_pipeline_sorted_permutation (seq : List Int) (_hN : 1 ≤ seq.length) :
    ∃ chunks out, makeChunks seq = .ok chunks ∧
      mergeChunks (sortChunksConcurrently chunks) = .ok out ∧
      pipeline seq = .ok out ∧ Ascending out ∧ out.Perm seq :=
  pipeline_spec seq

/-- Witness of C1 on the input `[3, 1, 2]`. -/
theorem C1_pipeline_sorted_permutation_witness :
    ∃ chunks out, makeChunks [3, 1, 2] = .ok chunks ∧
      mergeChunks (sortChunksConcurrently chunks) = .ok out ∧
      pipeline [3, 1, 2] = .ok out ∧ Ascending out ∧ out.Perm [3, 1, 2] :=
  C1_pipeline_sorted_permutation [3, 1, 2] (by decide)

/-- C2: for every sequence of length at least 1, `makeChunks` succeeds and the
concatenation of the returned chunks, in their returned order, is the input
itself. -/
theorem C2_chunks_concatenate_to_input (seq : List Int) (_hN : 1 ≤ seq.length) :
    ∃ chunks, makeChunks seq = .ok chunks ∧ chunks.flatten = seq := by
  obtain ⟨chunks, emk, hflat, _⟩ := makeChunks_spec seq
  exact ⟨chunks, emk, hflat⟩

/-- Witness of C2 on the input `[4, 4, -1, 7, 0]`. -/
theorem C2_chunks_concatenate_to_input_witness :
    ∃ chunks, makeChunks [4, 4, -1, 7, 0] = .ok chunks ∧ chunks.flatten = [4, 4, -1, 7, 0] :=
  C2_chunks_concatenate_to_input [4, 4, -1, 7, 0] (by decide)

/-- C3: for every collection of ascending chunks (of any lengths, empty ones
and repeated values included) `mergeChunks` succeeds and returns an ascending
sequence whose multiset of values is that of all elements of all chunks. -/
theorem C3_merge_sorted_permutation (chunks : List (List Int))
    (hasc : ∀ c ∈ chunks, Ascending c) :
    ∃ out, mergeChunks chunks = .ok out ∧ Ascending out ∧ out.Perm chunks.flatten := by
  obtain ⟨out, emerge, hperm, h⟩ := mergeChunks_spec chunks
  exact ⟨out, emerge, h hasc, hperm⟩

/-- Witness of C3 on chunks of unequal lengths with an empty chunk, repeated
values and an all-identical chunk. -/
theorem C3_merge_sorted_permutation_witness :
    (∀ c ∈ [[1, 1, 4], [], [2, 2], [-5, 1, 4, 9]], Ascending c) ∧
    ∃ out, mergeChunks [[1, 1, 4], [], [2, 2], [-5, 1, 4, 9]] = .ok out ∧ Ascending out ∧
      out.Perm [[1, 1, 4], [], [2, 2], [-5, 1, 4, 9]].flatten :=
  ⟨by decide, C3_merge_sorted_permutation [[1, 1, 4], [], [2, 2], [-5, 1, 4, 9]] (by decide)⟩

/-- C4: `sortChunksConcurrently` keeps the number of chunks, and the chunk at
every index afterwards has the length of the chunk that was there before, is
ascending, and is a permutation of it. -/
theorem C4_sort_chunks (chunks : List (List Int)) :
    (sortChunksConcurrently chunks).length = chunks.length ∧
    ∀ (i : Nat) (c : List Int), chunks[i]? = some c →
      ∃ s, (sortChunksConcurrently chunks)[i]? = some s ∧ s.length = c.length ∧
        Ascending s ∧ s.Perm c := by
  unfold sortChunksConcurrently
  refine ⟨List.length_map _ _, ?_⟩
  intro i c hc
  refine ⟨sortInts c, ?_, (sortInts_perm c).length_eq, sortInts_ascending c, sortInts_perm c⟩
  rw [List.getElem?_map, hc]
  rfl

/-- C5: the number of chunks returned by `makeChunks` never exceeds
`max(4, ceil(sqrt(N)))`, for an input of any length `N`. -/
theorem C5_chunk_count_bound (seq : List Int) :
    ∃ chunks, makeChunks seq = .ok chunks ∧
      chunks.length ≤ max 4 (ceilSqrt seq.length) := by
  obtain ⟨chunks, emk, _, hl⟩ := makeChunks_spec seq
  refine ⟨chunks, emk, ?_⟩
  rw [chunks_length_eq seq chunks hl, ← chunkTarget_eq]
  have := Nat.mod_lt seq.length (chunkTarget_pos seq.length)
  split <;> omega

/-- C6: with `k = max(4, ceil(sqrt(N)))`, `base = N / k` and
`remainder = N % k`, the chunks returned by `makeChunks` have, in order, the
sizes `base + 1` for the first `remainder` of them and `base` for every later
one; hence sizes never increase along the collection and differ by at most 1. -/
theorem C6_chunk_sizes (seq : List Int) :
    ∃ chunks, makeChunks seq = .ok chunks ∧
      seq.length % max 4 (ceilSqrt seq.length) ≤ chunks.length ∧
      (∀ (j : Nat) (c : List Int), chunks[j]? = some c →
        c.length = if j < seq.length % max 4 (ceilSqrt seq.length)
          then seq.length / max 4 (ceilSqrt seq.length) + 1
          else seq.length / max 4 (ceilSqrt seq.length)) ∧
      (∀ (i j : Nat) (ci cj : List Int), i ≤ j → chunks[i]? = some ci → chunks[j]? = some cj →
        cj.length ≤ ci.length ∧ ci.length ≤ cj.length + 1) := by
  obtain ⟨chunks, emk, _, hl⟩ := makeChunks_spec seq
  rw [← chunkTarget_eq]
  refine ⟨chunks, emk, ?_, chunk_length_at seq chunks hl, ?_⟩
  · rw [chunks_length_eq seq chunks hl]
    omega
  · intro i j ci cj hij hi hj
    rw [chunk_length_at seq chunks hl i ci hi, chunk_length_at seq chunks hl j cj hj]
    split <;> split <;> omega

/-- C7: every chunk returned by `makeChunks` has at least one element, for an
input of any length (the empty input included); when `N` is below
`k = max(4, ceil(sqrt(N)))` exactly `N` chunks are returned, each of length 1. -/
theorem C7_no_empty_chunk (seq : List Int) :
    ∃ chunks, makeChunks seq = .ok chunks ∧ (∀ c ∈ chunks, 1 ≤ c.length) ∧
      (seq.length < max 4 (ceilSqrt seq.length) →
        chunks.length = seq.length ∧ ∀ c ∈ chunks, c.length = 1) := by
  obtain ⟨chunks, emk, _, hl⟩ := makeChunks_spec seq
  rw [← chunkTarget_eq]
  refine ⟨chunks, emk, ?_, ?_⟩
  · intro c hc
    obtain ⟨j, hj⟩ := List.mem_iff_getElem?.mp hc
    have hlen := chunk_length_at seq chunks hl j c hj
    have hjl : j < chunks.length := by
      by_contra hcon
      rw [List.getElem?_eq_none (Nat.le_of_not_lt hcon)] at hj
      cases hj
    rw [chunks_length_eq seq chunks hl] at hjl
    rw [hlen]
    have hb0 := Nat.zero_le (seq.length / chunkTarget seq.length)
    split at hjl <;> split <;> omega
  · intro hlt
    have hdiv : seq.length / chunkTarget seq.length = 0 := Nat.div_eq_of_lt hlt
    have hmod : seq.length % chunkTarget seq.length = seq.length := Nat.mod_eq_of_lt hlt
    constructor
    · rw [chunks_length_eq seq chunks hl, if_pos hdiv, hmod]
      rfl
    · intro c hc
      obtain ⟨j, hj⟩ := List.mem_iff_getElem?.mp hc
      have hlen := chunk_length_at seq chunks hl j c hj
      have hjl : j < chunks.length := by
        by_contra hcon
        rw [List.getElem?_eq_none (Nat.le_of_not_lt hcon)] at hj
        cases hj
      rw [chunks_length_eq seq chunks hl, if_pos hdiv] at hjl
      rw [hlen, if_pos (by omega), hdiv]

/-- Witness of C7 below the target: the input `[8, 6]` has `N = 2 < 4 = k` and
is cut into two chunks of one element each. -/
theorem C7_no_empty_chunk_witness :
    ([8, 6] : List Int).length < max 4 (ceilSqrt ([8, 6] : List Int).length) ∧
    ∃ chunks, makeChunks [8, 6] = .ok chunks ∧ (∀ c ∈ chunks, 1 ≤ c.length) ∧
      chunks.length = 2 ∧ ∀ c ∈ chunks, c.length = 1 :=
  ⟨by decide,
    (C7_no_empty_chunk [8, 6]).imp fun _ h => ⟨h.1, h.2.1, h.2.2 (by decide)⟩⟩

/-- C8: for every input of length `N ≥ 10`, `makeChunks` omits no chunk: it
returns exactly `k = max(4, ceil(sqrt(N)))` chunks, hence at least 4, each with
at least one element. -/
theorem C8_no_chunk_omitted (seq : List Int) (hN : 10 ≤ seq.length) :
    ∃ chunks, makeChunks seq = .ok chunks ∧
      chunks.length = max 4 (ceilSqrt seq.length) ∧ 4 ≤ chunks.length ∧
      ∀ c ∈ chunks, 1 ≤ c.length := by
  obtain ⟨chunks, emk, _, hl⟩ := makeChunks_spec seq
  have hk : chunkTarget seq.length ≤ seq.length := by
    rw [chunkTarget_eq]
    have := ceilSqrt_le seq.length
    omega
  have hdiv : seq.length / chunkTarget seq.length ≠ 0 := by
    have := Nat.div_pos hk (chunkTarget_pos seq.length)
    omega
  have hmod := Nat.mod_lt seq.length (chunkTarget_pos seq.length)
  have hlen : chunks.length = chunkTarget seq.length := by
    rw [chunks_length_eq seq chunks hl, if_neg hdiv]
    omega
  rw [← chunkTarget_eq]
  refine ⟨chunks, emk, hlen, ?_, ?_⟩
  · rw [hlen, chunkTarget_eq]
    omega
  · intro c hc
    obtain ⟨j, hj⟩ := List.mem_iff_getElem?.mp hc
    rw [chunk_length_at seq chunks hl j c hj]
    have hb0 := Nat.zero_le (seq.length / chunkTarget seq.length)
    split <;> omega

/-- Witness of C8 on an input of length 10. -/
theorem C8_no_chunk_omitted_witness :
    ∃ chunks, makeChunks [5, -3, 5, 0, 9, -3, 2, 7, 1, 4] = .ok chunks ∧
      chunks.length = max 4 (ceilSqrt ([5, -3, 5, 0, 9, -3, 2, 7, 1, 4] : List Int).length) ∧
      4 ≤ chunks.length ∧ ∀ c ∈ chunks, 1 ≤ c.length :=
  C8_no_chunk_omitted [5, -3, 5, 0, 9, -3, 2, 7, 1, 4] (by decide)

/-- C9: on the input `[5, -3, 5, 0, 9, -3, 2, 7, 1, 4]` the target is `k = 4`,
`makeChunks` returns `[[5,-3,5],[0,9,-3],[2,7],[1,4]]` (sizes `[3,3,2,2]`),
sorting the chunks gives `[[-3,5,5],[-3,0,9],[2,7],[1,4]]`, and `mergeChunks`
of those returns `[-3,-3,0,1,2,4,5,5,7,9]`. -/
theorem C9_concrete_scenario :
    chunkTarget ([5, -3, 5, 0, 9, -3, 2, 7, 1, 4] : List Int).length = 4 ∧
    makeChunks [5, -3, 5, 0, 9, -3, 2, 7, 1, 4]
      = .ok [[5, -3, 5], [0, 9, -3], [2, 7], [1, 4]] ∧
    ([[5, -3, 5], [0, 9, -3], [2, 7], [1, 4]] : List (List Int)).map List.length
      = [3, 3, 2, 2] ∧
    sortChunksConcurrently [[5, -3, 5], [0, 9, -3], [2, 7], [1, 4]]
      = [[-3, 5, 5], [-3, 0, 9], [2, 7], [1, 4]] ∧
    mergeChunks [[-3, 5, 5], [-3, 0, 9], [2, 7], [1, 4]]
      = .ok [-3, -3, 0, 1, 2, 4, 5, 5, 7, 9] :=
  ⟨rfl, rfl, rfl, rfl, rfl⟩

/-- C10: for every input of length 100, the target is `k = 10` with remainder
0, `makeChunks` returns exactly 10 chunks of exactly 10 elements each, and the
merged output of the pipeline has length 100 and is ascending. -/
theorem C10_scaling_scenario (seq : List Int) (hN : seq.length = 100) :
    chunkTarget seq.length = 10 ∧ seq.length % chunkTarget seq.length = 0 ∧
    ∃ chunks out, makeChunks seq = .ok chunks ∧ chunks.length = 10 ∧
      (∀ c ∈ chunks, c.length = 10) ∧
      mergeChunks (sortChunksConcurrently chunks) = .ok out ∧
      out.length = 100 ∧ Ascending out := by
  have hk : chunkTarget seq.length = 10 := by
    rw [hN]
    decide
  obtain ⟨chunks, out, emk, emerge, _, hasc, hperm⟩ :=
    pipeline_spec seq
  obtain ⟨chunks2, emk2, _, hl⟩ := makeChunks_spec seq
  have e2 : chunks2 = chunks := by
    rw [emk] at emk2
    exact (Except.ok.inj emk2).symm
  subst e2
  refine ⟨hk, by rw [hk, hN], chunks2, out, emk, ?_, ?_, emerge, ?_, hasc⟩
  · rw [chunks_length_eq seq chunks2 hl, hk, hN]
    rfl
  · intro c hc
    obtain ⟨j, hj⟩ := List.mem_iff_getElem?.mp hc
    rw [chunk_length_at seq chunks2 hl j c hj, hk, hN]
    simp
  · rw [hperm.length_eq, hN]

/-- Witness of C10 on the descending input `99, 98, ..., 0`. -/
theorem C10_scaling_scenario_witness :
    ((List.range 100).map (fun i => 99 - Int.ofNat i)).length = 100 ∧
    ∃ chunks out, makeChunks ((List.range 100).map (fun i => 99 - Int.ofNat i)) = .ok chunks ∧
      chunks.length = 10 ∧ (∀ c ∈ chunks, c.length = 10) ∧
      mergeChunks (sortChunksConcurrently chunks) = .ok out ∧
      out.length = 100 ∧ Ascending out :=
  ⟨by rw [List.length_map, List.length_range],
    (C10_scaling_scenario ((List.range 100).map (fun i => 99 - Int.ofNat i))
      (by rw [List.length_map, List.length_range])).2.2⟩

/-! ## Further claims: equal inputs, idempotence, chunk order -/

theorem sortInts_of_ascending (l : List Int) (h : Ascending l) : sortInts l = l := by
  rw [sortInts_eq]
  exact List.Sorted.insertionSort_eq ((ascending_iff_sorted l).mp h)

theorem ascending_perm_unique (a b : List Int) (ha : Ascending a) (hb : Ascending b)
    (p : a.Perm b) : a = b :=
  List.eq_of_perm_of_sorted p ((ascending_iff_sorted a).mp ha) ((ascending_iff_sorted b).mp hb)

theorem ascending_of_all_eq (v : Int) (l : List Int) (h : ∀ x ∈ l, x = v) : Ascending l := by
  rw [ascending_iff_sorted]
  unfold List.Sorted
  rw [List.pairwise_iff_forall_sublist]
  intro a b hab
  have ha : a ∈ l := hab.subset (List.mem_cons_self _ _)
  have hb : b ∈ l := hab.subset (List.mem_cons_of_mem _ (List.mem_cons_self _ _))
  rw [h a ha, h b hb]

/-- C11: for every input whose elements are all equal to one value, the
pipeline `makeChunks`, `sortChunksConcurrently`, `mergeChunks` succeeds and
returns the input itself. -/
theorem C11_all_equal_input (seq : List Int) (v : Int) (hv : ∀ x ∈ seq, x = v) :
    pipeline seq = .ok seq ∧
    ∃ chunks, makeChunks seq = .ok chunks ∧
      mergeChunks (sortChunksConcurrently chunks) = .ok seq := by
  obtain ⟨chunks, out, emk, emerge, epipe, hasc, hperm⟩ := pipeline_spec seq
  have e : out = seq := ascending_perm_unique out seq hasc (ascending_of_all_eq v seq hv) hperm
  subst e
  exact ⟨epipe, chunks, emk, emerge⟩

/-- Witness of C11 on ten 3s. -/
theorem C11_all_equal_input_witness :
    pipeline [3, 3, 3, 3, 3, 3, 3, 3, 3, 3] = .ok [3, 3, 3, 3, 3, 3, 3, 3, 3, 3] :=
  (C11_all_equal_input [3, 3, 3, 3, 3, 3, 3, 3, 3, 3] 3 (by decide)).1

/-- C12: `sortChunksConcurrently` leaves a collection of ascending chunks
unchanged, and applying it twice to any collection gives the same result as
applying it once. -/
theorem C12_sort_idempotent (chunks : List (List Int)) :
    ((∀ c ∈ chunks, Ascending c) → sortChunksConcurrently chunks = chunks) ∧
    sortChunksConcurrently (sortChunksConcurrently chunks) = sortChunksConcurrently chunks := by
  have fix : ∀ cs : List (List Int), (∀ c ∈ cs, Ascending c) →
      sortChunksConcurrently cs = cs := by
    intro cs h
    unfold sortChunksConcurrently
    conv_rhs => rw [← List.map_id cs]
    apply List.map_congr_left
    intro c hc
    exact sortInts_of_ascending c (h c hc)
  refine ⟨fix chunks, fix _ ?_⟩
  intro c hc
  unfold sortChunksConcurrently at hc
  obtain ⟨c0, _, e⟩ := List.mem_map.mp hc
  rw [← e]
  exact sortInts_ascending c0

/-- Witness of C12 on a collection of ascending chunks. -/
theorem C12_sort_idempotent_witness :
    sortChunksConcurrently [[-3, 5, 5], [], [2, 7]] = [[-3, 5, 5], [], [2, 7]] :=
  (C12_sort_idempotent [[-3, 5, 5], [], [2, 7]]).1 (by decide)

/-- C13: for every collection of ascending chunks and every reordering of the
collection, `mergeChunks` succeeds on both and returns the same sequence. -/
theorem C13_chunk_order_irrelevant (chunks reordered : List (List Int))
    (hasc : ∀ c ∈ chunks, Ascending c) (hperm : reordered.Perm chunks) :
    ∃ out, mergeChunks chunks = .ok out ∧ mergeChunks reordered = .ok out := by
  obtain ⟨out, e1, p1, a1⟩ := mergeChunks_spec chunks
  obtain ⟨out2, e2, p2, a2⟩ := mergeChunks_spec reordered
  have hasc2 : ∀ c ∈ reordered, Ascending c := fun c hc => hasc c (hperm.subset hc)
  have e : out2 = out :=
    ascending_perm_unique out2 out (a2 hasc2) (a1 hasc)
      (p2.trans ((List.Perm.flatten hperm).trans p1.symm))
  subst e
  exact ⟨out2, e1, e2⟩

/-- Witness of C13 on three ascending chunks with ties across chunks, merged
in two different orders. -/
theorem C13_chunk_order_irrelevant_witness :
    ∃ out, mergeChunks [[1, 4], [1, 2, 4], [0]] = .ok out ∧
      mergeChunks [[0], [1, 4], [1, 2, 4]] = .ok out :=
  C13_chunk_order_irrelevant [[1, 4], [1, 2, 4], [0]] [[0], [1, 4], [1, 2, 4]]
    (by decide) (by decide)

/-! ## Bounds of the slices taken by `makeChunks` -/

theorem makeChunksLoopObs_eq (nums : List Int) (base rem : Nat) :
    ∀ m i idx acc obs, idx + sizeSum base rem i m ≤ nums.length →
      (∀ b ∈ obs, b.1 ≤ b.2 ∧ b.2 ≤ nums.length) →
      ∃ obs1, makeChunksLoopObs nums base rem m i idx acc obs
          = .ok (acc ++ chunksFrom nums base rem m i idx, idx + sizeSum base rem i m, obs1) ∧
        ∀ b ∈ obs1, b.1 ≤ b.2 ∧ b.2 ≤ nums.length := by
  intro m
  induction m with
  | zero =>
    intro i idx acc obs _ hobs
    exact ⟨obs, by simp [makeChunksLoopObs, chunksFrom, sizeSum], hobs⟩
  | succ m ih =>
    intro i idx acc obs h hobs
    unfold sizeSum at h
    unfold makeChunksLoopObs chunksFrom sizeSum
    simp only
    by_cases hz : chunkSize base rem i = 0
    · rw [if_pos hz, if_pos hz]
      obtain ⟨obs1, e, h1⟩ := ih (i + 1) idx acc obs (by omega) hobs
      refine ⟨obs1, ?_, h1⟩
      rw [e, hz, Nat.zero_add]
    · rw [if_neg hz, if_neg hz]
      have hs : slice nums idx (idx + chunkSize base rem i)
          = .ok ((nums.drop idx).take (chunkSize base rem i)) := by
        unfold slice
        rw [if_pos ⟨by omega, by omega⟩]
        simp
      rw [hs]
      simp only
      obtain ⟨obs1, e, h1⟩ := ih (i + 1) (idx + chunkSize base rem i)
        (acc ++ [(nums.drop idx).take (chunkSize base rem i)])
        (obs ++ [(idx, idx + chunkSize base rem i)]) (by omega) (by
          intro b hb
          rcases List.mem_append.mp hb with hb1 | hb1
          · exact hobs b hb1
          · rw [List.mem_singleton] at hb1
            rw [hb1]
            exact ⟨by simp, by simp only; omega⟩)
      refine ⟨obs1, ?_, h1⟩
      rw [e]
      simp [Nat.add_assoc]

theorem makeChunksObs_spec (nums : List Int) :
    ∃ chunks obs, makeChunksObs nums = .ok (chunks, nums.length, obs) ∧
      makeChunks nums = .ok chunks ∧ ∀ b ∈ obs, b.1 ≤ b.2 ∧ b.2 ≤ nums.length := by
  have hk := chunkTarget_pos nums.length
  have hsum : sizeSum (nums.length / chunkTarget nums.length)
      (nums.length % chunkTarget nums.length) 0 (chunkTarget nums.length)
      = nums.length := by
    rw [sizeSum_eq]
    have := Nat.div_add_mod nums.length (chunkTarget nums.length)
    have hrem := Nat.mod_lt nums.length hk
    rw [Nat.mul_comm] at this
    omega
  obtain ⟨obs1, e, h1⟩ := makeChunksLoopObs_eq nums (nums.length / chunkTarget nums.length)
    (nums.length % chunkTarget nums.length) (chunkTarget nums.length) 0 0 [] []
    (by omega) (by simp)
  refine ⟨chunksFrom nums (nums.length / chunkTarget nums.length)
    (nums.length % chunkTarget nums.length) (chunkTarget nums.length) 0 0, obs1, ?_, ?_, h1⟩
  · unfold makeChunksObs
    simp only
    rw [e, hsum]
    simp
  · unfold makeChunks
    simp only
    rw [makeChunksLoop_eq _ _ _ _ _ _ _ (by omega)]
    simp

/-! ## The frontier invariant of the merge loop -/

theorem emitted_append (c : Nat) (tr : List item) (x : item) :
    emitted c (tr ++ [x]) = emitted c tr + (if x.ci = c then 1 else 0) := by
  unfold emitted
  rw [List.countP_append, List.countP_singleton]
  simp

theorem emittedFrom_append (c : Nat) (tr : List item) (x : item) :
    emittedFrom c (tr ++ [x]) = emittedFrom c tr ++ (if x.ci = c then [x.value] else []) := by
  unfold emittedFrom
  rw [List.filter_append, List.map_append]
  by_cases h : x.ci = c <;> simp [List.filter, h]

theorem valid_lt (chunks : List (List Int)) (it : item) (ch : List Int)
    (hc : chunks[it.ci]? = some ch) (hv : Valid chunks it) :
    it.pi < ch.length ∧ ch[it.pi]? = some it.value := by
  obtain ⟨ch1, hc1, hv1⟩ := hv
  rw [hc] at hc1
  cases hc1
  exact ⟨(List.getElem?_eq_some_iff.mp hv1).1, hv1⟩

/-- The shape of one iteration: the result grows by the popped value, and the
heap is the popped heap, with the successor of the popped candidate pushed
when its chunk has one. -/
theorem mergeStep_shape (chunks : List (List Int)) (h hp h1 : minHeap) (res res1 : List Int)
    (x : item) (ch : List Int) (epop : heap.Pop h = .ok (x, hp))
    (hc : chunks[x.ci]? = some ch) (estep : mergeStep chunks h res = .ok (h1, res1)) :
    res1 = res ++ [x.value] ∧
    ((∃ v, x.pi + 1 < ch.length ∧ ch[x.pi + 1]? = some v ∧
        heap.Push hp ⟨v, x.ci, x.pi + 1⟩ = .ok h1) ∨
      (ch.length ≤ x.pi + 1 ∧ h1 = hp)) := by
  unfold mergeStep at estep
  rw [epop] at estep
  simp only at estep
  rw [hc] at estep
  simp only at estep
  by_cases hnext : x.pi + 1 < ch.length
  · rw [if_pos hnext, List.getElem?_eq_getElem hnext] at estep
    simp only at estep
    obtain ⟨h2, epush, _, _⟩ := push_spec hp ⟨ch[x.pi + 1], x.ci, x.pi + 1⟩
    rw [epush] at estep
    simp only [Except.ok.injEq, Prod.mk.injEq] at estep
    refine ⟨estep.2.symm, Or.inl ⟨ch[x.pi + 1], hnext, List.getElem?_eq_getElem hnext, ?_⟩⟩
    rw [epush, estep.1]
  · rw [if_neg hnext] at estep
    simp only [Except.ok.injEq, Prod.mk.injEq] at estep
    exact ⟨estep.2.symm, Or.inr ⟨by omega, estep.1.symm⟩⟩

theorem mergeStep_pop (chunks : List (List Int)) (h h1 : minHeap) (res res1 : List Int)
    (estep : mergeStep chunks h res = .ok (h1, res1)) :
    ∃ x hp, heap.Pop h = .ok (x, hp) := by
  unfold mergeStep at estep
  cases e : heap.Pop h with
  | error err => rw [e] at estep; cases estep
  | ok p => exact ⟨p.1, p.2, rfl⟩

theorem frontier_step (chunks : List (List Int)) (h hp h1 : minHeap) (res res1 : List Int)
    (tr : List item) (x : item) (inv : Frontier chunks h res tr) (hne : 0 < h.length)
    (epop : heap.Pop h = .ok (x, hp)) (estep : mergeStep chunks h res = .ok (h1, res1)) :
    Frontier chunks h1 res1 (tr ++ [x]) := by
  obtain ⟨x1, hp1, epop1, hx0, perm, hh⟩ := pop_spec h hne
  rw [epop] at epop1
  simp only [Except.ok.injEq, Prod.mk.injEq] at epop1
  obtain ⟨ex, ehp⟩ := epop1
  subst ex; subst ehp
  obtain ⟨hheapp, _⟩ := hh inv.isHeap
  have hxmem : x ∈ h := perm.subset (List.mem_cons_self _ _)
  have hsub : ∀ it ∈ hp, it ∈ h := fun it hit => perm.subset (List.mem_cons_of_mem _ hit)
  have hmemh : ∀ it ∈ h, it = x ∨ it ∈ hp := fun it hit => List.mem_cons.mp (perm.symm.subset hit)
  obtain ⟨ch, hc, hv⟩ := inv.valid x hxmem
  have hlt : x.pi < ch.length := (List.getElem?_eq_some_iff.mp hv).1
  have hnd : (x.ci :: hp.map item.ci).Nodup := by
    have := (List.Perm.map item.ci perm).nodup_iff.mpr inv.nodup
    simpa using this
  have hxci : ∀ it ∈ hp, it.ci ≠ x.ci := by
    intro it hit e
    exact (List.nodup_cons.mp hnd).1 (e ▸ List.mem_map_of_mem _ hit)
  -- the pending elements, through the earlier description of the step
  obtain ⟨h1s, xs, esteps, hx0s, _, _, hpend, _, _⟩ :=
    mergeStep_spec chunks h res hne inv.isHeap inv.valid
  rw [hx0] at hx0s
  cases hx0s
  rw [estep] at esteps
  simp only [Except.ok.injEq, Prod.mk.injEq] at esteps
  obtain ⟨e1, _⟩ := esteps
  subst e1
  have hcount : (tr ++ [x]).length + (pending chunks h1).length = chunks.flatten.length := by
    have l1 := hpend.length_eq
    have l2 := inv.count
    rw [List.length_cons] at l1
    rw [List.length_append, List.length_singleton]
    omega
  obtain ⟨eres, hshape⟩ := mergeStep_shape chunks h hp h1 res res1 x ch epop hc estep
  have hout : res1 = (tr ++ [x]).map item.value := by
    rw [eres, inv.out]
    simp
  have hposp : ∀ it ∈ hp, it.pi = emitted it.ci (tr ++ [x]) := by
    intro it hit
    rw [emitted_append, if_neg (fun e => hxci it hit e.symm), Nat.add_zero]
    exact inv.pos it (hsub it hit)
  have horder : ∀ (c : Nat) (ch1 : List Int), chunks[c]? = some ch1 →
      emittedFrom c (tr ++ [x]) = ch1.take (emitted c (tr ++ [x])) := by
    intro c ch1 hc1
    rw [emittedFrom_append, emitted_append, inv.order c ch1 hc1]
    by_cases e : x.ci = c
    · subst e
      rw [hc] at hc1
      cases hc1
      rw [if_pos rfl, if_pos rfl, ← inv.pos x hxmem, List.take_succ, hv]
      rfl
    · rw [if_neg e, if_neg e]
      simp
  rcases hshape with ⟨v, hnext, hv1, epush⟩ | ⟨hlast, e1⟩
  · obtain ⟨h2, epush2, perm2, hh2⟩ := push_spec hp ⟨v, x.ci, x.pi + 1⟩
    rw [epush] at epush2
    cases epush2
    have hmem1 : ∀ it ∈ h1, it = ⟨v, x.ci, x.pi + 1⟩ ∨ it ∈ hp :=
      fun it hit => List.mem_cons.mp (perm2.subset hit)
    have hnew : (⟨v, x.ci, x.pi + 1⟩ : item) ∈ h1 := perm2.symm.subset (List.mem_cons_self _ _)
    refine ⟨hh2 hheapp, ?_, ?_, ?_, ?_, ?_, hout, horder, hcount⟩
    · have := (List.Perm.map item.ci perm2).nodup_iff.mpr (by simpa using hnd)
      exact this
    · have l1 := perm2.length_eq
      have l2 := perm.length_eq
      have := inv.size
      simp only [List.length_cons] at l1 l2
      omega
    · intro it hit
      rcases hmem1 it hit with e | hit1
      · rw [e]; exact ⟨ch, hc, hv1⟩
      · exact inv.valid it (hsub it hit1)
    · intro it hit
      rcases hmem1 it hit with e | hit1
      · rw [e]
        simp only
        rw [emitted_append, if_pos rfl, ← inv.pos x hxmem]
      · exact hposp it hit1
    · intro c ch1 hc1 hno
      have hcx : x.ci ≠ c := by
        have := hno _ hnew
        exact this
      rw [emitted_append, if_neg hcx, Nat.add_zero]
      apply inv.done c ch1 hc1
      intro it hit
      rcases hmemh it hit with e | hit1
      · rw [e]; exact hcx
      · exact hno it (perm2.symm.subset (List.mem_cons_of_mem _ hit1))
  · subst e1
    refine ⟨hheapp, (List.nodup_cons.mp hnd).2, ?_, fun it hit => inv.valid it (hsub it hit),
      hposp, ?_, hout, horder, hcount⟩
    · have l2 := perm.length_eq
      have := inv.size
      simp only [List.length_cons] at l2
      omega
    · intro c ch1 hc1 hno
      rw [emitted_append]
      by_cases e : x.ci = c
      · subst e
        rw [hc] at hc1
        cases hc1
        rw [if_pos rfl, ← inv.pos x hxmem]
        omega
      · rw [if_neg e, Nat.add_zero]
        apply inv.done c ch1 hc1
        intro it hit
        rcases hmemh it hit with e2 | hit1
        · rw [e2]; exact e
        · exact hno it hit1

theorem mergeSeed_fresh (chunks : List (List Int)) :
    ∀ (todo pre : List (List Int)) (h : minHeap) (total : Nat), chunks = pre ++ todo →
      (h.map item.ci).Nodup → (∀ it ∈ h, it.pi = 0 ∧ it.ci < pre.length) →
      (∀ (c : Nat) (ch : List Int), c < pre.length → chunks[c]? = some ch →
        (∀ it ∈ h, it.ci ≠ c) → ch.length = 0) →
      h.length = nonEmptyCount pre →
      ∀ h1 t1, mergeSeed todo pre.length h total = .ok (h1, t1) →
        (h1.map item.ci).Nodup ∧ (∀ it ∈ h1, it.pi = 0) ∧
        (∀ (c : Nat) (ch : List Int), chunks[c]? = some ch →
          (∀ it ∈ h1, it.ci ≠ c) → ch.length = 0) ∧
        h1.length = nonEmptyCount chunks := by
  intro todo
  induction todo with
  | nil =>
    intro pre h total hch hnd hpos hdone hlen h1 t1 e
    simp only [mergeSeed, Except.ok.injEq, Prod.mk.injEq] at e
    obtain ⟨e1, _⟩ := e
    subst e1
    rw [List.append_nil] at hch
    subst hch
    refine ⟨hnd, fun it hit => (hpos it hit).1, ?_, hlen⟩
    intro c ch hc hno
    exact hdone c ch (List.getElem?_eq_some_iff.mp hc).1 hc hno
  | cons ch0 todo ih =>
    intro pre h total hch hnd hpos hdone hlen h1 t1 e
    have hch1 : chunks = (pre ++ [ch0]) ++ todo := by simp [hch]
    have hlen1 : (pre ++ [ch0]).length = pre.length + 1 := by simp
    have hc0 : chunks[pre.length]? = some ch0 := by
      rw [hch, List.getElem?_append_right (le_refl _)]
      simp
    unfold mergeSeed at e
    by_cases hne : 0 < ch0.length
    · rw [if_pos hne, List.getElem?_eq_getElem hne] at e
      simp only at e
      obtain ⟨h2, epush, perm2, _⟩ := push_spec h ⟨ch0[0], pre.length, 0⟩
      rw [epush] at e
      simp only at e
      rw [← hlen1] at e
      refine ih (pre ++ [ch0]) h2 _ hch1 ?_ ?_ ?_ ?_ h1 t1 e
      · apply (List.Perm.map item.ci perm2).nodup_iff.mpr
        rw [List.map_cons, List.nodup_cons]
        refine ⟨?_, hnd⟩
        intro hmem
        obtain ⟨it, hit, eit⟩ := List.mem_map.mp hmem
        have := (hpos it hit).2
        simp only at eit
        omega
      · intro it hit
        rw [hlen1]
        rcases List.mem_cons.mp (perm2.subset hit) with e1 | hit1
        · rw [e1]
          exact ⟨rfl, Nat.lt_succ_self _⟩
        · have := hpos it hit1
          exact ⟨this.1, by omega⟩
      · intro c ch hc hcc hno
        rw [hlen1] at hc
        by_cases hcp : c = pre.length
        · exact absurd hcp.symm (hno ⟨ch0[0], pre.length, 0⟩
            (perm2.symm.subset (List.mem_cons_self _ _)))
        · exact hdone c ch (by omega) hcc
            (fun it hit => hno it (perm2.symm.subset (List.mem_cons_of_mem _ hit)))
      · rw [perm2.length_eq, List.length_cons, hlen]
        simp [nonEmptyCount, List.countP_append, hne]
    · rw [if_neg hne] at e
      rw [← hlen1] at e
      refine ih (pre ++ [ch0]) h _ hch1 hnd ?_ ?_ ?_ h1 t1 e
      · intro it hit
        rw [hlen1]
        have := hpos it hit
        exact ⟨this.1, by omega⟩
      · intro c ch hc hcc hno
        rw [hlen1] at hc
        by_cases hcp : c = pre.length
        · subst hcp
          rw [hc0] at hcc
          cases hcc
          omega
        · exact hdone c ch (by omega) hcc hno
      · rw [hlen]
        simp [nonEmptyCount, List.countP_append, hne]

theorem frontier_init (chunks : List (List Int)) (hi h0 : minHeap) (total : Nat)
    (einit : heap.Init [] = .ok hi) (eseed : mergeSeed chunks 0 hi 0 = .ok (h0, total)) :
    Frontier chunks h0 [] [] ∧ total = chunks.flatten.length := by
  rw [heap_init_nil] at einit
  cases einit
  obtain ⟨h1, e1, hheap, hval, hperm⟩ :=
    mergeSeed_spec chunks chunks [] [] 0 rfl isHeap_nil (by simp)
  have e0 : ([] : List (List Int)).length = 0 := rfl
  rw [e0, eseed] at e1
  simp only [Except.ok.injEq, Prod.mk.injEq] at e1
  obtain ⟨eh, et⟩ := e1
  subst eh
  obtain ⟨hnd, hpos, hdone, hlen⟩ :=
    mergeSeed_fresh chunks chunks [] [] 0 rfl (by simp) (by simp) (by simp)
      (by simp [nonEmptyCount]) h0 total (by rw [e0]; exact eseed)
  refine ⟨⟨hheap, hnd, le_of_eq hlen, hval, ?_, ?_, rfl, ?_, ?_⟩, by omega⟩
  · intro it hit
    rw [hpos it hit]
    rfl
  · intro c ch hc hno
    rw [hdone c ch hc hno]
    rfl
  · intro c ch _
    simp [emittedFrom, emitted]
  · have := hperm.length_eq
    simpa [pending] using this

theorem loopAt_frontier (chunks : List (List Int)) (h0 : minHeap)
    (inv0 : Frontier chunks h0 [] []) :
    ∀ n h res tr, LoopAt chunks h0 n h res tr → Frontier chunks h res tr ∧ tr.length = n := by
  intro n h res tr hl
  induction hl with
  | start => exact ⟨inv0, rfl⟩
  | next _ hne epop estep ih =>
    refine ⟨frontier_step chunks _ _ _ _ _ _ _ ih.1 hne epop estep, ?_⟩
    rw [List.length_append, List.length_singleton, ih.2]

theorem mergeLoop_loopAt (chunks : List (List Int)) (h0 : minHeap) :
    ∀ fuel n h res tr out, LoopAt chunks h0 n h res tr →
      mergeLoop chunks fuel h res = .ok out →
      ∃ m tr1, LoopAt chunks h0 m [] out tr1 := by
  intro fuel
  induction fuel with
  | zero =>
    intro n h res tr out hl e
    unfold mergeLoop at e
    by_cases hne : 0 < h.Len
    · rw [if_pos hne] at e
      cases e
    · rw [if_neg hne] at e
      cases e
      have hnil : h = [] := List.length_eq_zero.mp (by unfold minHeap.Len at hne; omega)
      subst hnil
      exact ⟨n, tr, hl⟩
  | succ fuel ih =>
    intro n h res tr out hl e
    unfold mergeLoop at e
    by_cases hne : 0 < h.Len
    · rw [if_pos hne] at e
      cases estep : mergeStep chunks h res with
      | error err => rw [estep] at e; cases e
      | ok p =>
        obtain ⟨h1, res1⟩ := p
        rw [estep] at e
        obtain ⟨x, hp, epop⟩ := mergeStep_pop chunks h h1 res res1 estep
        exact ih _ _ _ _ out (LoopAt.next hl hne epop estep) e
    · rw [if_neg hne] at e
      cases e
      have hnil : h = [] := List.length_eq_zero.mp (by unfold minHeap.Len at hne; omega)
      subst hnil
      exact ⟨n, tr, hl⟩

/-- Where the loop of `mergeChunks` starts and ends: seeding does not fail and
counts all elements, the call returns, and the returned sequence is the result
of the loop state with an empty heap reached after exactly that many
iterations. -/
theorem mergeChunks_run (chunks : List (List Int)) :
    ∃ h0 out tr, mergeSeed chunks 0 [] 0 = .ok (h0, chunks.flatten.length) ∧
      Frontier chunks h0 [] [] ∧ mergeChunks chunks = .ok out ∧
      LoopAt chunks h0 chunks.flatten.length [] out tr ∧
      Frontier chunks [] out tr := by
  obtain ⟨h0, eseed, hheap, hval, hperm⟩ :=
    mergeSeed_spec chunks chunks [] [] 0 rfl isHeap_nil (by simp)
  have e0 : ([] : List (List Int)).length = 0 := rfl
  rw [e0, Nat.zero_add] at eseed
  obtain ⟨inv0, _⟩ := frontier_init chunks [] h0 _ heap_init_nil eseed
  obtain ⟨out, emerge, _, _⟩ := mergeChunks_spec chunks
  have eloop : mergeLoop chunks chunks.flatten.length h0 [] = .ok out := by
    unfold mergeChunks at emerge
    rw [heap_init_nil] at emerge
    simp only at emerge
    rw [eseed] at emerge
    exact emerge
  obtain ⟨m, tr, hl⟩ := mergeLoop_loopAt chunks h0 _ 0 h0 [] [] out LoopAt.start eloop
  obtain ⟨inv, hlen⟩ := loopAt_frontier chunks h0 inv0 m [] out tr hl
  have hm : m = chunks.flatten.length := by
    have := inv.count
    simp only [pending, List.flatMap_nil, List.length_nil, Nat.add_zero] at this
    omega
  subst hm
  exact ⟨h0, out, tr, eseed, inv0, emerge, hl, inv⟩

/-- At a loop state with a non-empty heap the iteration succeeds: `heap.Pop`
returns the root, whose chunk exists, and the step appends its value. -/
theorem frontier_pop (chunks : List (List Int)) (h : minHeap) (res : List Int)
    (tr : List item) (inv : Frontier chunks h res tr) (hne : 0 < h.Len) :
    ∃ x hp h1 ch, heap.Pop h = .ok (x, hp) ∧ x ∈ h ∧ (∀ y ∈ h, x.value ≤ y.value) ∧
      chunks[x.ci]? = some ch ∧ x.pi < ch.length ∧ ch[x.pi]? = some x.value ∧
      mergeStep chunks h res = .ok (h1, res ++ [x.value]) ∧
      (h1 = hp ∨ ∃ y, heap.Push hp y = .ok h1) := by
  have hne1 : 0 < h.length := hne
  obtain ⟨x, hp, epop, hx0, perm, hh⟩ := pop_spec h hne1
  obtain ⟨_, hmin⟩ := hh inv.isHeap
  have hxmem : x ∈ h := perm.subset (List.mem_cons_self _ _)
  obtain ⟨ch, hc, hv⟩ := inv.valid x hxmem
  obtain ⟨h1, xs, estep, hx0s, _⟩ := mergeStep_spec chunks h res hne1 inv.isHeap inv.valid
  rw [hx0] at hx0s
  cases hx0s
  obtain ⟨_, hshape⟩ := mergeStep_shape chunks h hp h1 res _ x ch epop hc estep
  refine ⟨x, hp, h1, ch, epop, hxmem, hmin, hc, (List.getElem?_eq_some_iff.mp hv).1, hv,
    estep, ?_⟩
  rcases hshape with ⟨v, _, _, epush⟩ | ⟨_, e1⟩
  · exact Or.inr ⟨_, epush⟩
  · exact Or.inl e1

/-- C14: the core never indexes out of range.  In `makeChunks` every slice
`nums[idx:idx+size]` has `idx + size ≤ N` and `idx = N` when the loop ends; in
`mergeChunks` every `heap.Pop` is on a non-empty heap and every popped
candidate names an existing chunk and position; `makeChunks`, `mergeChunks` and
the pipeline return a result, not the error branch. -/
theorem C14_no_out_of_bounds (seq : List Int) (chunks : List (List Int)) :
    (∃ cs obs, makeChunksObs seq = .ok (cs, seq.length, obs) ∧ makeChunks seq = .ok cs ∧
      ∀ b ∈ obs, b.1 ≤ b.2 ∧ b.2 ≤ seq.length) ∧
    (∃ out, mergeChunks chunks = .ok out) ∧
    (∃ out, pipeline seq = .ok out) ∧
    (∃ h0, heap.Init [] = .ok [] ∧ mergeSeed chunks 0 [] 0 = .ok (h0, chunks.flatten.length) ∧
      ∀ (n : Nat) (h : minHeap) (res : List Int) (tr : List item),
        LoopAt chunks h0 n h res tr → 0 < h.Len →
        ∃ x hp h1 ch, heap.Pop h = .ok (x, hp) ∧ chunks[x.ci]? = some ch ∧
          x.pi < ch.length ∧ (x.pi + 1 < ch.length → ∃ v, ch[x.pi + 1]? = some v) ∧
          mergeStep chunks h res = .ok (h1, res ++ [x.value])) := by
  obtain ⟨cs, obs, e1, e2, e3⟩ := makeChunksObs_spec seq
  obtain ⟨out, emerge, _⟩ := mergeChunks_spec chunks
  obtain ⟨_, out2, _, _, epipe, _⟩ := pipeline_spec seq
  obtain ⟨h0, _, _, eseed, inv0, _⟩ := mergeChunks_run chunks
  refine ⟨⟨cs, obs, e1, e2, e3⟩, ⟨out, emerge⟩, ⟨out2, epipe⟩, h0, heap_init_nil, eseed, ?_⟩
  intro n h res tr hl hne
  obtain ⟨inv, _⟩ := loopAt_frontier chunks h0 inv0 n h res tr hl
  obtain ⟨x, hp, h1, ch, epop, _, _, hc, hlt, _, estep, _⟩ := frontier_pop chunks h res tr inv hne
  exact ⟨x, hp, h1, ch, epop, hc, hlt,
    fun hnext => ⟨ch[x.pi + 1], List.getElem?_eq_getElem hnext⟩, estep⟩

/-- C16: for every collection of ascending chunks, at every iteration of the
loop of `mergeChunks` the value popped from the heap and appended to the output
is one of the not yet emitted values and is `≤` every value in the not yet
emitted suffix of every chunk. -/
theorem C16_popped_is_global_minimum (chunks : List (List Int)) (hi h0 : minHeap)
    (total n : Nat) (h : minHeap) (res : List Int) (tr : List item)
    (hasc : ∀ c ∈ chunks, Ascending c) (einit : heap.Init [] = .ok hi)
    (eseed : mergeSeed chunks 0 hi 0 = .ok (h0, total))
    (hl : LoopAt chunks h0 n h res tr) (hne : 0 < h.Len) :
    ∃ x hp h1, heap.Pop h = .ok (x, hp) ∧
      mergeStep chunks h res = .ok (h1, res ++ [x.value]) ∧
      (∃ ch, chunks[x.ci]? = some ch ∧ ch[emitted x.ci tr]? = some x.value) ∧
      ∀ (c : Nat) (ch : List Int), chunks[c]? = some ch →
        ∀ v ∈ ch.drop (emitted c tr), x.value ≤ v := by
  obtain ⟨inv0, _⟩ := frontier_init chunks hi h0 total einit eseed
  obtain ⟨inv, _⟩ := loopAt_frontier chunks h0 inv0 n h res tr hl
  obtain ⟨x, hp, h1, ch, epop, hxmem, hmin, hc, _, hv, estep, _⟩ :=
    frontier_pop chunks h res tr inv hne
  refine ⟨x, hp, h1, epop, estep, ⟨ch, hc, ?_⟩, ?_⟩
  · rw [← inv.pos x hxmem]
    exact hv
  · intro c ch1 hc1 v hvmem
    by_cases hex : ∃ it ∈ h, it.ci = c
    · obtain ⟨it, hit, eit⟩ := hex
      subst eit
      obtain ⟨hlt, hval⟩ := valid_lt chunks it ch1 hc1 (inv.valid it hit)
      rw [← inv.pos it hit, List.drop_eq_getElem_cons hlt] at hvmem
      have hitv : ch1[it.pi] = it.value := by
        have := List.getElem?_eq_getElem hlt
        rw [hval] at this
        exact (Option.some.inj this).symm
      rcases List.mem_cons.mp hvmem with e | hrest
      · rw [e, hitv]
        exact hmin it hit
      · exact le_trans (hmin it hit)
          (ascending_drop_ge ch1 (hasc ch1 (List.getElem?_mem hc1)) it.pi it.value hval v hrest)
    · have hno : ∀ it ∈ h, it.ci ≠ c := fun it hit e => hex ⟨it, hit, e⟩
      rw [inv.done c ch1 hc1 hno, List.drop_length] at hvmem
      cases hvmem

/-- Witness of C16 on the chunks `[[1, 4], [0, 2]]`, at the second iteration:
the heap holds `1` (chunk 0) and `2` (chunk 1) after `0` was emitted. -/
theorem C16_popped_is_global_minimum_witness :
    ∃ x hp h1, heap.Pop [⟨1, 0, 0⟩, ⟨2, 1, 1⟩] = .ok (x, hp) ∧
      mergeStep [[1, 4], [0, 2]] [⟨1, 0, 0⟩, ⟨2, 1, 1⟩] [0] = .ok (h1, [0] ++ [x.value]) ∧
      (∃ ch, [[1, 4], [0, 2]][x.ci]? = some ch ∧
        ch[emitted x.ci [⟨0, 1, 0⟩]]? = some x.value) ∧
      ∀ (c : Nat) (ch : List Int), [[1, 4], [0, 2]][c]? = some ch →
        ∀ v ∈ ch.drop (emitted c [⟨0, 1, 0⟩]), x.value ≤ v :=
  C16_popped_is_global_minimum [[1, 4], [0, 2]] [] [⟨0, 1, 0⟩, ⟨1, 0, 0⟩] 4 1
    [⟨1, 0, 0⟩, ⟨2, 1, 1⟩] [0] [⟨0, 1, 0⟩] (by decide) rfl rfl
    (@LoopAt.next [[1, 4], [0, 2]] [⟨0, 1, 0⟩, ⟨1, 0, 0⟩] 0 [⟨0, 1, 0⟩, ⟨1, 0, 0⟩]
      [⟨1, 0, 0⟩] [⟨1, 0, 0⟩, ⟨2, 1, 1⟩] [] [0] [] ⟨0, 1, 0⟩ LoopAt.start (by decide) rfl rfl)
    (by decide)

/-- C17: at the start of every iteration of the loop of `mergeChunks`, for any
chunk collection, the heap holds at most one candidate per chunk index, so no
more candidates than there are non-empty chunks, and every candidate
`(value, ci, pi)` has `pi < len(chunks[ci])`, `value = chunks[ci][pi]` and `pi`
equal to the number of elements of chunk `ci` already emitted. -/
theorem C17_frontier_invariant (chunks : List (List Int)) (hi h0 : minHeap)
    (total n : Nat) (h : minHeap) (res : List Int) (tr : List item)
    (einit : heap.Init [] = .ok hi) (eseed : mergeSeed chunks 0 hi 0 = .ok (h0, total))
    (hl : LoopAt chunks h0 n h res tr) :
    (h.map item.ci).Nodup ∧ h.Len ≤ nonEmptyCount chunks ∧
    ∀ it ∈ h, ∃ ch, chunks[it.ci]? = some ch ∧ it.pi < ch.length ∧
      ch[it.pi]? = some it.value ∧ it.pi = emitted it.ci tr := by
  obtain ⟨inv0, _⟩ := frontier_init chunks hi h0 total einit eseed
  obtain ⟨inv, _⟩ := loopAt_frontier chunks h0 inv0 n h res tr hl
  refine ⟨inv.nodup, inv.size, ?_⟩
  intro it hit
  obtain ⟨ch, hc, hv⟩ := inv.valid it hit
  exact ⟨ch, hc, (List.getElem?_eq_some_iff.mp hv).1, hv, inv.pos it hit⟩

/-- Witness of C17 on the chunks `[[7, 1], [], [3], [2, 2, 9]]` (one unsorted,
one empty), at the second iteration. -/
theorem C17_frontier_invariant_witness :
    (([⟨2, 3, 1⟩, ⟨7, 0, 0⟩, ⟨3, 2, 0⟩] : minHeap).map item.ci).Nodup ∧
    minHeap.Len [⟨2, 3, 1⟩, ⟨7, 0, 0⟩, ⟨3, 2, 0⟩]
      ≤ nonEmptyCount [[7, 1], [], [3], [2, 2, 9]] ∧
    ∀ it ∈ ([⟨2, 3, 1⟩, ⟨7, 0, 0⟩, ⟨3, 2, 0⟩] : minHeap),
      ∃ ch, [[7, 1], [], [3], [2, 2, 9]][it.ci]? = some ch ∧ it.pi < ch.length ∧
        ch[it.pi]? = some it.value ∧ it.pi = emitted it.ci [⟨2, 3, 0⟩] :=
  C17_frontier_invariant [[7, 1], [], [3], [2, 2, 9]] []
    [⟨2, 3, 0⟩, ⟨7, 0, 0⟩, ⟨3, 2, 0⟩] 6 1 [⟨2, 3, 1⟩, ⟨7, 0, 0⟩, ⟨3, 2, 0⟩] [2] [⟨2, 3, 0⟩]
    rfl rfl
    (@LoopAt.next [[7, 1], [], [3], [2, 2, 9]] [⟨2, 3, 0⟩, ⟨7, 0, 0⟩, ⟨3, 2, 0⟩] 0
      [⟨2, 3, 0⟩, ⟨7, 0, 0⟩, ⟨3, 2, 0⟩] [⟨3, 2, 0⟩, ⟨7, 0, 0⟩]
      [⟨2, 3, 1⟩, ⟨7, 0, 0⟩, ⟨3, 2, 0⟩] [] [2] [] ⟨2, 3, 0⟩ LoopAt.start (by decide) rfl rfl)

/-- C19: `mergeChunks` returns on every chunk collection, sorted or not.  Its
loop reaches the empty heap after exactly as many iterations as there are
elements in all chunks, every iteration does one `heap.Pop` and at most one
`heap.Push`, and the returned sequence has that many elements. -/
theorem C19_merge_terminates (chunks : List (List Int)) :
    ∃ h0 out tr, heap.Init [] = .ok [] ∧
      mergeSeed chunks 0 [] 0 = .ok (h0, chunks.flatten.length) ∧
      mergeChunks chunks = .ok out ∧ out.length = chunks.flatten.length ∧
      LoopAt chunks h0 chunks.flatten.length [] out tr ∧
      ∀ (n : Nat) (h : minHeap) (res : List Int) (tr1 : List item),
        LoopAt chunks h0 n h res tr1 →
        n ≤ chunks.flatten.length ∧ (h.Len = 0 ↔ n = chunks.flatten.length) ∧
        (0 < h.Len → ∃ x hp h1, heap.Pop h = .ok (x, hp) ∧
          mergeStep chunks h res = .ok (h1, res ++ [x.value]) ∧
          (h1 = hp ∨ ∃ y, heap.Push hp y = .ok h1)) := by
  obtain ⟨h0, out, tr, eseed, inv0, emerge, hl, inv⟩ := mergeChunks_run chunks
  obtain ⟨_, hlen⟩ := loopAt_frontier chunks h0 inv0 _ [] out tr hl
  refine ⟨h0, out, tr, heap_init_nil, eseed, emerge, ?_, hl, ?_⟩
  · rw [inv.out, List.length_map, hlen]
  · intro n h res tr1 hl1
    obtain ⟨inv1, hlen1⟩ := loopAt_frontier chunks h0 inv0 n h res tr1 hl1
    have hcount := inv1.count
    rw [hlen1] at hcount
    refine ⟨by omega, ?_, ?_⟩
    · constructor
      · intro hz
        have hnil : h = [] := List.length_eq_zero.mp hz
        rw [hnil] at hcount
        simp only [pending, List.flatMap_nil, List.length_nil, Nat.add_zero] at hcount
        exact hcount
      · intro hn
        by_contra hz
        have hpos : 0 < h.length := Nat.pos_of_ne_zero hz
        have := pending_length_pos chunks h hpos inv1.valid
        omega
    · intro hne
      obtain ⟨x, hp, h1, _, epop, _, _, _, _, _, estep, hsh⟩ :=
        frontier_pop chunks h res tr1 inv1 hne
      exact ⟨x, hp, h1, epop, estep, hsh⟩

/-- C20: for every chunk collection, sorted or not, `mergeChunks` returns a
permutation of the concatenation of all chunks in which the elements of each
chunk keep their relative order: the output positions can be labelled with
chunk indices so that the values labelled `c`, in output order, are exactly
chunk `c`; in particular every chunk is a subsequence of the output. -/
theorem C20_merge_loses_nothing (chunks : List (List Int)) :
    ∃ out tr, mergeChunks chunks = .ok out ∧ out.Perm chunks.flatten ∧
      out = tr.map item.value ∧
      (∀ (c : Nat) (ch : List Int), chunks[c]? = some ch → emittedFrom c tr = ch) ∧
      ∀ ch ∈ chunks, ch.Sublist out := by
  obtain ⟨h0, out, tr, _, _, emerge, _, inv⟩ := mergeChunks_run chunks
  obtain ⟨out1, emerge1, hperm, _⟩ := mergeChunks_spec chunks
  rw [emerge] at emerge1
  cases emerge1
  have hall : ∀ (c : Nat) (ch : List Int), chunks[c]? = some ch → emittedFrom c tr = ch := by
    intro c ch hc
    rw [inv.order c ch hc, inv.done c ch hc (by simp), List.take_length]
  refine ⟨out, tr, emerge, hperm, inv.out, hall, ?_⟩
  intro ch hch
  obtain ⟨c, hc⟩ := List.mem_iff_getElem?.mp hch
  rw [← hall c ch hc, inv.out]
  unfold emittedFrom
  exact List.Sublist.map _ (List.filter_sublist _)

/-! ## The chunk-count target in `float64` arithmetic -/

theorem ceilSqrt_unique (n c : Nat) (h1 : n ≤ c * c)
    (h2 : c = 0 ∨ (c - 1) * (c - 1) < n) : ceilSqrt n = c := by
  obtain ⟨l, u⟩ := ceilSqrt_spec n
  have a := u c h1
  rcases h2 with h0 | h2
  · omega
  · by_contra hne
    have hle : ceilSqrt n ≤ c - 1 := by omega
    have := Nat.mul_self_le_mul_self hle
    omega

/-- The bound `2^52` of `goChunkTarget_eq` cannot be raised: at
`2^52 + 1 = 4503599627370497` the square root lies less than half a unit in
the last place above `67108864`, so the `float64` evaluation gives `67108864`
while the exact ceiling is `67108865`.  No `[]int` has that many elements
(32 PiB), so `makeChunks` never computes its target there. -/
theorem goChunkTarget_bound_sharp :
    4503599627370497 < 2 ^ 63 ∧ goChunkTarget 4503599627370497 = 67108864 ∧
    max 4 (ceilSqrt 4503599627370497) = 67108865 ∧
    goChunkTarget 4503599627370497 ≠ max 4 (ceilSqrt 4503599627370497) := by
  have e1 : goChunkTarget 4503599627370497 = 67108864 := by decide
  have e2 : ceilSqrt 4503599627370497 = 67108865 :=
    ceilSqrt_unique _ _ (by norm_num) (Or.inr (by norm_num))
  refine ⟨by norm_num, e1, ?_, ?_⟩
  · rw [e2]
    rfl
  · rw [e1, e2]
    decide

end Gosort
